import Mathlib

/-!
Shallow embedding of the request-authentication and caching core of the
cf-workers-s3-proxy worker (TypeScript), together with proofs about the
embedded functions.

Embedded source files:
* `src/lib/utils.ts`    — `rfc3986Encode`, `createCanonicalQueryString`
* `src/lib/security.ts` — `verifySignature`, `validateAndSanitizePrefix`
* `src/lib/cache.ts`    — `generateCacheKey`, `calculateTtl`,
                          `createConditionalResponse`, `performFetchAttempt`

JavaScript strings are modelled as Lean `String`s; JS numbers appearing in
the embedded fragments are modelled as `Nat`/`Int`/`Rat` with the special
values NaN and infinity made explicit where the source can produce them.
Web-platform builtins that the source calls (URLSearchParams, Headers,
`localeCompare`, `Date` parsing, HMAC verification) are modelled by explicit
Lean functions or by quantified parameters; each such model carries a doc
comment stating exactly which builtin it stands for.
-/

namespace S3Proxy
/-! ### Generic comparison of lists of naturals

`cmpNatList` is lexicographic comparison of `List Nat`, the common core used
to model both JS code-unit string comparison (`URLSearchParams.sort`) and the
collation model for `String.prototype.localeCompare`. -/

/-- Lexicographic comparison of lists of naturals (shorter list first on
exhaustion). -/
def cmpNatList : List Nat → List Nat → Ordering
  | [], [] => .eq
  | [], _ :: _ => .lt
  | _ :: _, [] => .gt
  | a :: as, b :: bs =>
      if a < b then .lt else if b < a then .gt else cmpNatList as bs

/-! ### Stable sorting

ECMAScript `Array.prototype.sort(cmp)` and `URLSearchParams.sort()` are
required to be stable: an element `a` ends up before `b` iff `cmp a b ≤ 0`
when `a` preceded `b`, and iff `cmp a b < 0` when `b` preceded `a`.  Any
stable sort realizes this contract; we embed it as stable insertion sort,
which satisfies exactly the same specification. -/

/-- Boolean "sorts no later than" induced by a three-way comparator. -/
def cmpLe (cmp : α → α → Ordering) (a b : α) : Bool :=
  match cmp a b with
  | .gt => false
  | _ => true

/-- Stable insertion: `a` is placed in front of the first `b` with
`le a b = true`. -/
def insertLe (le : α → α → Bool) (a : α) : List α → List α
  | [] => [a]
  | b :: l => if le a b then a :: b :: l else b :: insertLe le a l

/-- Stable insertion sort; models a stable comparator sort. -/
def sortByLe (le : α → α → Bool) : List α → List α
  | [] => []
  | a :: l => insertLe le a (sortByLe le l)

/-- The UTF-16 code units of a character.  JS strings are sequences of UTF-16
code units; characters beyond the basic multilingual plane occupy a surrogate
pair. -/
def utf16Units (c : Char) : List Nat :=
  if c.toNat < 0x10000 then [c.toNat]
  else [0xD800 + (c.toNat - 0x10000) / 0x400, 0xDC00 + (c.toNat - 0x10000) % 0x400]

/-- The UTF-16 code units of a string. -/
def utf16 (s : String) : List Nat := (s.data.map utf16Units).flatten

/-- Comparison of JS strings as sequences of UTF-16 code units: the ordering
applied by `URLSearchParams.sort()` (WHATWG URL: "sort by code units"). -/
def codeUnitCmp (a b : String) : Ordering := cmpNatList (utf16 a) (utf16 b)

/-- The UTF-8 encoding of the code point `n`, as the list of its byte
values. -/
def utf8Nat (n : Nat) : List Nat :=
  if n < 0x80 then [n]
  else if n < 0x800 then [0xC0 + n / 64, 0x80 + n % 64]
  else if n < 0x10000 then [0xE0 + n / 4096, 0x80 + n / 64 % 64, 0x80 + n % 64]
  else [0xF0 + n / 262144, 0x80 + n / 4096 % 64, 0x80 + n / 64 % 64, 0x80 + n % 64]

/-- The UTF-8 bytes of a character. -/
def utf8Bytes (c : Char) : List Nat := utf8Nat c.toNat

/-- The number of bytes in a UTF-8 encoding, read off its first byte. -/
def utf8len (b : Nat) : Nat :=
  if b < 0x80 then 1 else if b < 0xE0 then 2 else if b < 0xF0 then 3 else 4

/-! ### Percent escapes and `application/x-www-form-urlencoded` serialization

`URL.prototype.toString()` serializes the search-parameter list with the
WHATWG urlencoded serializer: bytes that are ASCII alphanumeric or one of
`* - . _` pass through, the space becomes `+`, every other UTF-8 byte
becomes `%XX` with uppercase hex digits. -/

/-- Uppercase hexadecimal digit for a value `< 16`. -/
def hexDigitUpper (n : Nat) : Char :=
  if n < 10 then Char.ofNat (48 + n) else Char.ofNat (55 + n)

/-- The three-character percent escape of a byte. -/
def pctByte (b : Nat) : List Char :=
  ['%', hexDigitUpper (b / 16), hexDigitUpper (b % 16)]

/-- Percent escapes of a whole byte sequence. -/
def pctBytes (bs : List Nat) : List Char := (bs.map pctByte).flatten

/-- Characters the urlencoded serializer passes through unchanged:
ASCII alphanumerics (code points 48–57, 65–90, 97–122) and `* - . _`
(42, 45, 46, 95). -/
def formSafe (c : Char) : Bool :=
  decide ((48 ≤ c.toNat ∧ c.toNat ≤ 57) ∨ (65 ≤ c.toNat ∧ c.toNat ≤ 90) ∨
    (97 ≤ c.toNat ∧ c.toNat ≤ 122) ∨
    c.toNat = 42 ∨ c.toNat = 45 ∨ c.toNat = 46 ∨ c.toNat = 95)

/-- The urlencoded serialization of one character: safe characters pass
through, the space becomes `+`, everything else becomes percent-escaped
UTF-8 bytes. -/
def formEncodeChar (c : Char) : List Char :=
  if formSafe c then [c]
  else if c = ' ' then ['+']
  else pctBytes (utf8Bytes c)

/-- The urlencoded serialization of a string (WHATWG urlencoded serializer,
as used by `URLSearchParams`/`URL.toString`). -/
def formUrlEncode (s : String) : String := ⟨(s.data.map formEncodeChar).flatten⟩

/-! ### Collation model for `String.prototype.localeCompare`

`createCanonicalQueryString` sorts with the comparator
`([a], [b]) => a.localeCompare(b)`.  Under the default locale (ICU root
collation) letters are compared case-insensitively at the primary level and
case decides only as a tie-breaker, with lowercase before uppercase (so
`"a" < "B" < "b"` is false but `"a" < "B"` holds while `"B" < "a"` fails by
code points).  We model this for ASCII data: the primary weight of a
character is its ASCII-case-folded code point and the tie-breaker is the
case bit.  Locale behaviour for non-ASCII input (accents, ignorable
characters) is outside the model. -/

/-- Primary collation weight: the ASCII-case-folded code point
(`c.toLower.toNat` expressed arithmetically). -/
def charPrimary (c : Char) : Nat :=
  if 65 ≤ c.toNat ∧ c.toNat ≤ 90 then c.toNat + 32 else c.toNat

/-- Case-level weight: lowercase before uppercase. -/
def charCaseWeight (c : Char) : Nat :=
  if 65 ≤ c.toNat ∧ c.toNat ≤ 90 then 1 else 0

/-- Model of `a.localeCompare(b)` (default locale, ASCII data): compare the
primary weights lexicographically and break ties with the case weights. -/
def localeCmp (a b : String) : Ordering :=
  (cmpNatList (a.data.map charPrimary) (b.data.map charPrimary)).then
    (cmpNatList (a.data.map charCaseWeight) (b.data.map charCaseWeight))

/-! ### Canonicalizer (`src/lib/utils.ts`)

```ts
export function rfc3986Encode(str: string): string {
  return encodeURIComponent(str).replace(
    /[!'()*]/g,
    (c) => `%${c.charCodeAt(0).toString(16).toUpperCase()}`,
  )
}
```
-/

/-- Characters `encodeURIComponent` leaves unescaped (ECMA-262
`uriUnescaped`): ASCII alphanumerics and `- _ . ! ~ * ( )` and the
apostrophe — code points 45, 95, 46, 33, 126, 42, 40, 41, 39. -/
def uriUnescaped (c : Char) : Bool :=
  decide ((48 ≤ c.toNat ∧ c.toNat ≤ 57) ∨ (65 ≤ c.toNat ∧ c.toNat ≤ 90) ∨
    (97 ≤ c.toNat ∧ c.toNat ≤ 122) ∨
    c.toNat = 45 ∨ c.toNat = 95 ∨ c.toNat = 46 ∨ c.toNat = 33 ∨
    c.toNat = 126 ∨ c.toNat = 42 ∨ c.toNat = 39 ∨ c.toNat = 40 ∨ c.toNat = 41)

/-- Model of `encodeURIComponent` on one character: unescaped characters
pass through, all others become percent-escaped UTF-8 bytes with uppercase
hex digits. -/
def encodeURIComponentChar (c : Char) : List Char :=
  if uriUnescaped c then [c] else pctBytes (utf8Bytes c)

/-- Model of `encodeURIComponent`. -/
def encodeURIComponentStr (s : String) : String :=
  ⟨(s.data.map encodeURIComponentChar).flatten⟩

/-- The five characters additionally escaped by `rfc3986Encode`'s
`.replace(/[!'()*]/g, …)` — code points 33, 39, 40, 41, 42. -/
def rfcExtra (c : Char) : Bool :=
  decide (c.toNat = 33 ∨ c.toNat = 39 ∨ c.toNat = 40 ∨ c.toNat = 41 ∨
    c.toNat = 42)

/-- One replacement step of `.replace(/[!'()*]/g, c => "%" + hex)`; for the
five matched characters the uppercase-hex code unit is exactly two digits,
i.e. `pctByte`. -/
def rfcReplaceChar (c : Char) : List Char :=
  if rfcExtra c then pctByte c.toNat else [c]

/-- Embedding of `rfc3986Encode`: `encodeURIComponent` followed by the
character replacement. -/
def rfc3986Encode (s : String) : String :=
  ⟨((encodeURIComponentStr s).data.map rfcReplaceChar).flatten⟩

/-- The RFC 3986 unreserved characters, written from the spec text: ASCII
alphanumerics and `- . _ ~` (45, 46, 95, 126); everything else (in
particular the space and `! ' ( ) *`) must be percent-encoded. -/
def unreservedRFC3986 (c : Char) : Bool :=
  decide ((48 ≤ c.toNat ∧ c.toNat ≤ 57) ∨ (65 ≤ c.toNat ∧ c.toNat ≤ 90) ∨
    (97 ≤ c.toNat ∧ c.toNat ≤ 122) ∨
    c.toNat = 45 ∨ c.toNat = 46 ∨ c.toNat = 95 ∨ c.toNat = 126)

/-- Percent-encoding per RFC 3986, written from the spec text. -/
def specRfc3986Encode (s : String) : String :=
  ⟨(s.data.map fun c =>
    if unreservedRFC3986 c then [c] else pctBytes (utf8Bytes c)).flatten⟩

/-- Comparator on parameter pairs used by the source's
`params.sort(([a], [b]) => a.localeCompare(b))`: compare names with the
collation, ties keep input order (stable sort). -/
def localeLe (p q : String × String) : Bool := cmpLe localeCmp p.1 q.1

/-- Embedding of `createCanonicalQueryString` (src/lib/utils.ts), first
phase: collect the entries whose name is not the excluded one and sort by
name.  `searchParams` is the entry list of the `URLSearchParams` (names and
values percent-decoded, in order); the filter keeps an entry when
`!excludeParam || name !== excludeParam`, so an `undefined` — or falsy
empty-string — exclusion excludes nothing. -/
def canonicalParams (searchParams : List (String × String))
    (excludeParam : Option String) : List (String × String) :=
  sortByLe localeLe (searchParams.filter fun p =>
    match excludeParam with
    | none => true
    | some e => if e = "" then true else p.1 != e)

/-- Embedding of `createCanonicalQueryString` (src/lib/utils.ts): encode
each surviving pair as `name=value` with `rfc3986Encode` and join with
`&`. -/
def createCanonicalQueryString (searchParams : List (String × String))
    (excludeParam : Option String) : String :=
  String.intercalate "&"
    ((canonicalParams searchParams excludeParam).map fun p =>
      rfc3986Encode p.1 ++ "=" ++ rfc3986Encode p.2)

/-! ### Cache key builder (`generateCacheKey`, src/lib/cache.ts) -/

/-- Join a list of strings with a separator (`Array.prototype.join`). -/
def joinSep (sep : String) : List String → String
  | [] => ""
  | [x] => x
  | x :: y :: xs => x ++ sep ++ joinSep sep (y :: xs)

/-- ASCII-lowercase a string (JS header names are matched
case-insensitively). -/
def asciiLower (s : String) : String :=
  ⟨s.data.map fun c =>
    if 65 ≤ c.toNat ∧ c.toNat ≤ 90 then Char.ofNat (c.toNat + 32) else c⟩

/-- Model of `Headers.prototype.get`: case-insensitive name match, first
matching entry (combination of duplicate headers is not modelled). `none`
models the `null` return. -/
def headersGet (hs : List (String × String)) (name : String) : Option String :=
  (hs.find? fun h => asciiLower h.1 == asciiLower name).map Prod.snd

/-- Model of `Headers.prototype.has`. -/
def headersHas (hs : List (String × String)) (name : String) : Bool :=
  (headersGet hs name).isSome

/-- JS truthiness of `headers.get(name)`: the value when it is neither
`null` nor the empty string. -/
def truthyGet (hs : List (String × String)) (name : String) : Option String :=
  match headersGet hs name with
  | some v => if v = "" then none else some v
  | none => none

/-- A parsed URL as consumed by `generateCacheKey`: the parser-normalized,
percent-encoded pathname and the decoded search-parameter entries, in
order.  `new URL(url)` parsing itself is not modelled. -/
structure UrlModel where
  pathname : String
  searchParams : List (String × String)

/-- The fixed exclusion list of `generateCacheKey`:
`[...signatureParams, ...cacheBustingParams]`. -/
def excludedParams : List String :=
  ["sig", "exp"] ++ ["_", "bust", "nocache", "v", "version"]

/-- `URLSearchParams.delete(name)`: drop every entry with the name. -/
def deleteParam (l : List (String × String)) (name : String) :
    List (String × String) :=
  l.filter fun p => p.1 != name

/-- The deletion loop `for (const paramName of excludedParams)
urlObj.searchParams.delete(paramName)`. -/
def deleteExcluded (l : List (String × String)) : List (String × String) :=
  excludedParams.foldl deleteParam l

/-- The comparator of `URLSearchParams.sort()`: stable sort by name in
UTF-16 code-unit order. -/
def searchSortLe (p q : String × String) : Bool := cmpLe codeUnitCmp p.1 q.1

/-- `URLSearchParams.set(name, value)`: if an entry with the name exists,
replace the first one's value and drop the rest; otherwise append. -/
def setParam : List (String × String) → String → String → List (String × String)
  | [], n, v => [(n, v)]
  | p :: rest, n, v =>
      if p.1 = n then (n, v) :: rest.filter (fun q => q.1 != n)
      else p :: setParam rest n v

/-- The copy loop `for (const [name, value] of urlObj.searchParams)
cacheUrl.searchParams.set(name, value)`, starting from the fresh (empty)
`https://cache.internal` URL. -/
def copyParams (l : List (String × String)) : List (String × String) :=
  l.foldl (fun acc p => setParam acc p.1 p.2) []

/-- The header-part loop over `relevantHeaderNames = ["range",
"accept-encoding"]`: push `name:value` for each header with a truthy
value. -/
def headerParts (headers : List (String × String)) : List String :=
  ["range", "accept-encoding"].filterMap fun n =>
    (truthyGet headers n).map fun v => n ++ ":" ++ v

/-- The final search-parameter list of the cache URL: the cleaned, sorted,
copied parameters, then `_cache_headers` (when any relevant header is
present) and `_cache_version` (when the version argument is truthy), each
added with `set`. -/
def cacheKeyParams (u : UrlModel) (headers : List (String × String))
    (version : Option String) : List (String × String) :=
  let cleaned := deleteExcluded u.searchParams
  let sorted := sortByLe searchSortLe cleaned
  let copied := copyParams sorted
  let withHeaders :=
    match headerParts headers with
    | [] => copied
    | parts => setParam copied "_cache_headers" (joinSep "|" parts)
  match version with
  | none => withHeaders
  | some v => if v = "" then withHeaders else setParam withHeaders "_cache_version" v

/-- One `name=value` unit of the urlencoded query serialization. -/
def encodePair (p : String × String) : String :=
  formUrlEncode p.1 ++ "=" ++ formUrlEncode p.2

/-- The query part of `URL.toString()`: empty when the search list is
empty, otherwise `?` followed by the urlencoded serialization. -/
def serializeQuery (l : List (String × String)) : String :=
  match l with
  | [] => ""
  | _ => "?" ++ joinSep "&" (l.map encodePair)

/-- Embedding of `generateCacheKey` (src/lib/cache.ts): the cache URL
`https://cache.internal` with the request's pathname, the cleaned and
sorted query, and the `_cache_headers`/`_cache_version` markers,
serialized back to a string. -/
def generateCacheKey (u : UrlModel) (headers : List (String × String))
    (version : Option String) : String :=
  "https://cache.internal" ++ u.pathname
    ++ serializeQuery (cacheKeyParams u headers version)

/-- The `_cache_headers` entry appended by `generateCacheKey`, if any. -/
def hdrEntries (headers : List (String × String)) : List (String × String) :=
  match headerParts headers with
  | [] => []
  | parts => [("_cache_headers", joinSep "|" parts)]

/-- The `_cache_version` entry appended by `generateCacheKey`, if any. -/
def verEntries (version : Option String) : List (String × String) :=
  match version with
  | none => []
  | some v => if v = "" then [] else [("_cache_version", v)]

/-- The `range` header part pushed by the header loop. -/
def rangePart : Option String → List String
  | some v => ["range:" ++ v]
  | none => []

/-- The `accept-encoding` header part pushed by the header loop. -/
def aePart : Option String → List String
  | some v => ["accept-encoding:" ++ v]
  | none => []

/-- The data-to-sign construction of `verifySignature`
(src/lib/security.ts): `hasQueryParams = canonicalQueryString.length > 0`,
and the data to sign is `pathname?canonical` with the `?` omitted when the
canonical query string is empty. -/
def dataToSign (pathname canonical : String) : String :=
  if canonical.length > 0 then pathname ++ "?" ++ canonical else pathname

/-! ### Signature verification (`verifySignature`, src/lib/security.ts) -/

/-- An exact (not necessarily reduced) fraction `num / den` with a positive
power-of-ten denominator, the value space of finite results of
`Number(string)`. -/
structure JsRat where
  num : Int
  den : Nat
deriving DecidableEq

/-- JS number values produced by `Number(string)`: NaN, infinities, or a
finite value.  Finite values are modelled as exact fractions; IEEE-754
rounding of decimal literals is not modelled. -/
inductive JsNum where
  | nan : JsNum
  | posInf : JsNum
  | negInf : JsNum
  | fin : JsRat → JsNum
deriving DecidableEq

/-- ECMAScript whitespace accepted by `ToNumber`/`parseInt` trimming (the
common ASCII cases and NBSP/BOM). -/
def isJsWhitespace (c : Char) : Bool :=
  decide (c.toNat = 32 ∨ c.toNat = 9 ∨ c.toNat = 10 ∨ c.toNat = 11 ∨
    c.toNat = 12 ∨ c.toNat = 13 ∨ c.toNat = 0xA0 ∨ c.toNat = 0xFEFF)

/-- Decimal digit run to a natural number. -/
def digitsToNat (l : List Char) : Nat :=
  l.foldl (fun acc c => acc * 10 + (c.toNat - 48)) 0

/-- Value of one hexadecimal digit, if any. -/
def hexDigitVal (c : Char) : Option Nat :=
  if 48 ≤ c.toNat ∧ c.toNat ≤ 57 then some (c.toNat - 48)
  else if 97 ≤ c.toNat ∧ c.toNat ≤ 102 then some (c.toNat - 87)
  else if 65 ≤ c.toNat ∧ c.toNat ≤ 70 then some (c.toNat - 55)
  else none

/-- Digit run in base `b` to a natural number, via a digit reader. -/
def radixToNat (digitVal : Char → Option Nat) (b : Nat) (l : List Char) : Nat :=
  l.foldl (fun acc c => acc * b + (digitVal c).getD 0) 0

/-- The unsigned decimal part of the `StringNumericLiteral` grammar:
`digits [. digits] [e [sign] digits]` or `. digits [e …]`; `none` when the
input does not match (NaN). -/
def parseDecimal (l : List Char) : Option JsRat :=
  let mant := l.takeWhile fun c => !(c == 'e' || c == 'E')
  let expPart := l.dropWhile fun c => !(c == 'e' || c == 'E')
  let expVal : Option Int :=
    match expPart with
    | [] => some 0
    | _ :: rest =>
        let (esign, edigs) :=
          match rest with
          | '+' :: r => ((1 : Int), r)
          | '-' :: r => ((-1 : Int), r)
          | r => ((1 : Int), r)
        if edigs ≠ [] ∧ edigs.all Char.isDigit
        then some (esign * digitsToNat edigs) else none
  let ip := mant.takeWhile fun c => !(c == '.')
  let fpPart := mant.dropWhile fun c => !(c == '.')
  let mantVal : Option JsRat :=
    match fpPart with
    | [] =>
        if ip ≠ [] ∧ ip.all Char.isDigit
        then some ⟨digitsToNat ip, 1⟩ else none
    | _ :: fp =>
        if (ip ≠ [] ∨ fp ≠ []) ∧ ip.all Char.isDigit ∧ fp.all Char.isDigit
        then some ⟨digitsToNat ip * 10 ^ fp.length + digitsToNat fp,
          10 ^ fp.length⟩
        else none
  match mantVal, expVal with
  | some m, some e =>
      if 0 ≤ e then some ⟨m.num * 10 ^ e.toNat, m.den⟩
      else some ⟨m.num, m.den * 10 ^ (-e).toNat⟩
  | _, _ => none

/-- Model of `Number(string)` (ECMAScript `ToNumber` on strings): trim
whitespace; empty means 0; `Infinity` with optional sign; decimal
literals; unsigned `0x`/`0o`/`0b` radix literals; everything else NaN.
Finite results are exact rationals (no float rounding). -/
def jsToNumber (s : String) : JsNum :=
  let t := ((s.data.dropWhile isJsWhitespace).reverse.dropWhile
    isJsWhitespace).reverse
  match t with
  | [] => .fin ⟨0, 1⟩
  | '0' :: 'x' :: r =>
      if r ≠ [] ∧ r.all (fun c => (hexDigitVal c).isSome)
      then .fin ⟨radixToNat hexDigitVal 16 r, 1⟩ else .nan
  | '0' :: 'X' :: r =>
      if r ≠ [] ∧ r.all (fun c => (hexDigitVal c).isSome)
      then .fin ⟨radixToNat hexDigitVal 16 r, 1⟩ else .nan
  | '0' :: 'o' :: r =>
      if r ≠ [] ∧ r.all (fun c => 48 ≤ c.toNat ∧ c.toNat ≤ 55)
      then .fin ⟨radixToNat (fun c => some (c.toNat - 48)) 8 r, 1⟩ else .nan
  | '0' :: 'O' :: r =>
      if r ≠ [] ∧ r.all (fun c => 48 ≤ c.toNat ∧ c.toNat ≤ 55)
      then .fin ⟨radixToNat (fun c => some (c.toNat - 48)) 8 r, 1⟩ else .nan
  | '0' :: 'b' :: r =>
      if r ≠ [] ∧ r.all (fun c => c.toNat = 48 ∨ c.toNat = 49)
      then .fin ⟨radixToNat (fun c => some (c.toNat - 48)) 2 r, 1⟩ else .nan
  | '0' :: 'B' :: r =>
      if r ≠ [] ∧ r.all (fun c => c.toNat = 48 ∨ c.toNat = 49)
      then .fin ⟨radixToNat (fun c => some (c.toNat - 48)) 2 r, 1⟩ else .nan
  | '+' :: r =>
      if r = "Infinity".data then .posInf
      else match parseDecimal r with
        | some q => .fin q
        | none => .nan
  | '-' :: r =>
      if r = "Infinity".data then .negInf
      else match parseDecimal r with
        | some q => .fin ⟨-q.num, q.den⟩
        | none => .nan
  | r =>
      if r = "Infinity".data then .posInf
      else match parseDecimal r with
        | some q => .fin q
        | none => .nan

/-- `x * 1000` on JS numbers as used for the expiry comparison. -/
def jsMul1000 : JsNum → JsNum
  | .nan => .nan
  | .posInf => .posInf
  | .negInf => .negInf
  | .fin q => .fin ⟨q.num * 1000, q.den⟩

/-- `Date.now() > x` with `Date.now()` an integer count of milliseconds:
false against NaN and +Infinity, true against -Infinity, and the exact
fraction comparison `now > num/den` otherwise. -/
def jsGt (now : Int) : JsNum → Bool
  | .nan => false
  | .posInf => false
  | .negInf => true
  | .fin q => decide (q.num < now * q.den)

/-- Model of `parseInt(s, 16)` (ECMAScript `parseInt`): trim leading
whitespace, optional sign, optional `0x`/`0X` prefix, then the longest
leading run of hex digits; `none` (NaN) when that run is empty. -/
def parseIntHex (l : List Char) : Option Int :=
  let t := l.dropWhile isJsWhitespace
  let (sign, t₁) : Int × List Char :=
    match t with
    | '+' :: r => (1, r)
    | '-' :: r => (-1, r)
    | r => (1, r)
  let t₂ :=
    match t₁ with
    | '0' :: 'x' :: r => r
    | '0' :: 'X' :: r => r
    | r => r
  let digs := t₂.takeWhile fun c => (hexDigitVal c).isSome
  if digs = [] then none else some (sign * radixToNat hexDigitVal 16 digs)

/-- `Uint8Array` element coercion (`ToUint8`): NaN becomes 0, integers are
taken modulo 256. -/
def toUint8 : Option Int → Nat
  | none => 0
  | some i => (i % 256).toNat

/-- ECMAScript line terminators, which `.` in a regex does not match. -/
def isLineTerm (c : Char) : Bool :=
  decide (c.toNat = 10 ∨ c.toNat = 13 ∨ c.toNat = 0x2028 ∨ c.toNat = 0x2029)

/-- The maximal runs of non-line-terminator characters, in order. -/
def nonTermRuns (l : List Char) : List (List Char) :=
  (l.foldr (fun c acc =>
    if isLineTerm c then [] :: acc
    else match acc with
      | [] => [[c]]
      | run :: rest => (c :: run) :: rest) []).filter (· ≠ [])

/-- Split a run into chunks of two (a final chunk may have one
character). -/
def chunk2 : List Char → List (List Char)
  | [] => []
  | [a] => [[a]]
  | a :: b :: r => [a, b] :: chunk2 r

/-- Model of `providedSignature.match(/.{1,2}/g)`: `null` (`none`) exactly
when there is no match at all, i.e. the string consists only of line
terminators (or is empty); otherwise the 1–2-character chunks of each
non-terminator run. -/
def hexChunks (s : String) : Option (List (List Char)) :=
  match ((nonTermRuns s.data).map chunk2).flatten with
  | [] => none
  | cs => some cs

/-- The byte list the source builds with
`new Uint8Array(hexByteMatches.map((hexByte) => Number.parseInt(hexByte, 16)))`
(empty when the match was `null`, in which case the source throws
instead). -/
def decodeSigBytes (s : String) : List Nat :=
  match hexChunks s with
  | none => []
  | some cs => cs.map fun ch => toUint8 (parseIntHex ch)

/-- Outcome of `verifySignature`. -/
inductive VerifyResult where
  | missingParams : VerifyResult
  | expired : VerifyResult
  | malformedSignature : VerifyResult
  | badSignature : VerifyResult
  | ok : VerifyResult
deriving DecidableEq

/-- `URLSearchParams.get(name)`: the value of the first entry with the
exact name, `null` (`none`) when absent. -/
def getParam (ps : List (String × String)) (name : String) : Option String :=
  (ps.find? fun p => p.1 == name).map Prod.snd

/-- Embedding of `verifySignature` (src/lib/security.ts).  `now` is
`Date.now()` in milliseconds; `hmacVerify bytes data` abstracts
`crypto.subtle.verify` of HMAC-SHA256 over `data` against `bytes`.  The
control flow mirrors the source: missing/falsy `sig` or `exp` → 403
missing; `Date.now() > Number(exp) * 1000` → 403 expired; a `null` result
of `sig.match(/.{1,2}/g)` → 403 invalid-format; failing HMAC → 403 invalid
signature. -/
def verifySignatureModel (url : UrlModel) (now : Int)
    (hmacVerify : List Nat → String → Bool) : VerifyResult :=
  match getParam url.searchParams "sig", getParam url.searchParams "exp" with
  | some sig, some exp =>
      if sig = "" ∨ exp = "" then .missingParams
      else
        let expirationTimeMs := jsMul1000 (jsToNumber exp)
        if jsGt now expirationTimeMs then .expired
        else
          let canonical := createCanonicalQueryString url.searchParams (some "sig")
          let data := dataToSign url.pathname canonical
          match hexChunks sig with
          | none => .malformedSignature
          | some chunks =>
              if hmacVerify (chunks.map fun ch => toUint8 (parseIntHex ch)) data
              then .ok else .badSignature
  | _, _ => .missingParams

/-! ### TTL policy (`calculateTtl`, src/lib/cache.ts) -/

/-- The cache configuration record (src/types/cache.ts, resolved by
`getCacheConfig`). -/
structure CacheConfig where
  enabled : Bool
  ttlSeconds : Int
  overrideS3Headers : Bool
  minTtlSeconds : Int
  maxTtlSeconds : Int
  debug : Bool

/-- A fetched response: status code and headers.  Bodies are irrelevant to
the embedded fragments. -/
structure JsResponse where
  status : Nat
  headers : List (String × String)
deriving DecidableEq

/-- `Math.max(lo, Math.min(hi, x))`, the clamping used throughout
`calculateTtl`. -/
def jsClamp (lo hi x : Int) : Int := max lo (min hi x)

/-- Tests whether the list starts with the pattern. -/
def listStartsWith : List Char → List Char → Bool
  | _, [] => true
  | [], _ :: _ => false
  | a :: as, b :: bs => a == b && listStartsWith as bs

/-- Model of `cacheControlValue.match(/max-age=(\d+)/)`: the first position
where `max-age=` is followed by at least one digit, capturing the maximal
digit run. -/
def matchMaxAge : List Char → Option Nat
  | [] => none
  | c :: rest =>
      if listStartsWith (c :: rest) "max-age=".data then
        let digs := ((c :: rest).drop 8).takeWhile Char.isDigit
        if digs = [] then matchMaxAge rest else some (digitsToNat digs)
      else matchMaxAge rest

/-- Embedding of `calculateTtl` (src/lib/cache.ts).  `now` is `Date.now()`
and `parseDate` models `new Date(string).getTime()` (`none` = NaN); both
are quantified in the theorems, so the bounds hold for every date
semantics.  Mirrors the source: override flag → configured TTL; else a
truthy `cache-control` with a `max-age` match; else a truthy `expires`
strictly in the future; else the configured TTL — each clamped to
`[minTtlSeconds, maxTtlSeconds]`. -/
def calculateTtl (response : JsResponse) (config : CacheConfig) (now : Int)
    (parseDate : String → Option Int) : Int :=
  if config.overrideS3Headers then
    jsClamp config.minTtlSeconds config.maxTtlSeconds config.ttlSeconds
  else
    let ccCase : Option Int :=
      match headersGet response.headers "cache-control" with
      | some cc =>
          if cc = "" then none
          else
            match matchMaxAge cc.data with
            | some n => some (jsClamp config.minTtlSeconds config.maxTtlSeconds n)
            | none => none
      | none => none
    match ccCase with
    | some t => t
    | none =>
        let expiresCase : Option Int :=
          match headersGet response.headers "expires" with
          | some ev =>
              if ev = "" then none
              else
                match parseDate ev with
                | some expiryTime =>
                    if now < expiryTime then
                      some (jsClamp config.minTtlSeconds config.maxTtlSeconds
                        ((expiryTime - now).fdiv 1000))
                    else none
                | none => none
          | none => none
        match expiresCase with
        | some t => t
        | none =>
            jsClamp config.minTtlSeconds config.maxTtlSeconds config.ttlSeconds

/-! ### Retrying origin fetcher (`performFetchAttempt` in src/lib/cache.ts,
`performS3FetchAttempt`/`s3Fetch` in src/lib/aws-client.ts) -/

/-- HTTP methods of the proxy (src/types/s3.ts). -/
inductive HttpMethod where
  | GET : HttpMethod
  | HEAD : HttpMethod
  | PUT : HttpMethod
  | POST : HttpMethod
  | DELETE : HttpMethod
deriving DecidableEq

/-- `Response.ok`: status in the 2xx range. -/
def responseOk (r : JsResponse) : Bool :=
  decide (200 ≤ r.status ∧ r.status ≤ 299)

/-- Embedding of the response handling of `performFetchAttempt`
(src/lib/cache.ts): after the signed fetch, a ranged GET without
`content-range` throws; a not-ok status ≥ 500 throws; anything else is
returned as-is.  Thrown errors are the `.error` results; network or
signing failures of the fetch itself are modelled at the retry loop. -/
def performFetchAttempt (method : HttpMethod)
    (reqHeaders : List (String × String)) (res : JsResponse) :
    Except String JsResponse :=
  if (method = HttpMethod.GET ∧ headersHas reqHeaders "Range" = true)
      ∧ headersHas res.headers "content-range" = false then
    .error "Missing content-range"
  else if responseOk res = false ∧ 500 ≤ res.status then
    .error ("Upstream responded with server error: " ++ toString res.status)
  else .ok res

/-- `validateRangeResponse` (src/lib/aws-client.ts). -/
def validateRangeResponse (method : HttpMethod)
    (reqHeaders : List (String × String)) (res : JsResponse) :
    Except String Unit :=
  if (method = HttpMethod.GET ∧ headersHas reqHeaders "Range" = true)
      ∧ headersHas res.headers "content-range" = false
  then .error "Missing content-range"
  else .ok ()

/-- `handleServerError` (src/lib/aws-client.ts). -/
def handleServerError (res : JsResponse) : Except String JsResponse :=
  if responseOk res = false ∧ 500 ≤ res.status
  then .error ("Upstream responded with server error: " ++ toString res.status)
  else .ok res

/-- Embedding of `performS3FetchAttempt` (src/lib/aws-client.ts): the range
validation, then the server-error handling (the body `clone()` is
irrelevant here). -/
def performS3FetchAttempt (method : HttpMethod)
    (reqHeaders : List (String × String)) (res : JsResponse) :
    Except String JsResponse :=
  match validateRangeResponse method reqHeaders res with
  | .error e => .error e
  | .ok _ => handleServerError res

/-- The retry loop of `s3Fetch`/`performFetchWithRetry`: `results i` is the
response delivered by attempt `i` (`none` models a thrown network/signing
failure).  The first attempt whose outcome is a return wins; after
exhausting the attempt budget the loop fails with the final error. -/
def s3FetchGo (method : HttpMethod) (reqHeaders : List (String × String))
    (results : Nat → Option JsResponse) : Nat → Nat → Except String JsResponse
  | _, 0 => .error "Failed after attempts"
  | i, fuel + 1 =>
      match results i with
      | none => s3FetchGo method reqHeaders results (i + 1) fuel
      | some r =>
          match performFetchAttempt method reqHeaders r with
          | .ok res => .ok res
          | .error _ => s3FetchGo method reqHeaders results (i + 1) fuel

/-- `s3Fetch` with a maximum attempt count. -/
def s3Fetch (attempts : Nat) (results : Nat → Option JsResponse)
    (method : HttpMethod) (reqHeaders : List (String × String)) :
    Except String JsResponse :=
  s3FetchGo method reqHeaders results 0 attempts

/-! ### Conditional response synthesizer (`createConditionalResponse`,
src/lib/cache.ts).  Responses are modelled without bodies; the synthesized
304s are constructed with `new Response(null, …)` in the source, i.e.
bodyless. -/

/-- JS truthiness of a nullable string. -/
def jsTruthy : Option String → Bool
  | none => false
  | some s => decide (s ≠ "")

/-- JS `String.prototype.includes` on the underlying character lists. -/
def listIncludes : List Char → List Char → Bool
  | [], pat => pat.isEmpty
  | c :: t, pat => listStartsWith (c :: t) pat || listIncludes t pat

/-- JS `s.includes(sub)`. -/
def strIncludes (s sub : String) : Bool := listIncludes s.data sub.data

/-- The ETag block of `createConditionalResponse`: when the client value is
truthy and the cached `ETag` is truthy and matches (`*` or substring), a
bodyless 304 carrying the entry's `ETag`, `Cache-Control` and
`Last-Modified` (absent ones as empty strings, via `|| ""`). -/
def etagConditional (clientEtag : Option String) (cached : JsResponse) :
    Option JsResponse :=
  match clientEtag with
  | some et =>
      if et = "" then none
      else
        match headersGet cached.headers "etag" with
        | some serverEtag =>
            if serverEtag = "" then none
            else if et = "*" ∨ strIncludes et serverEtag = true then
              some ⟨304, [("etag", serverEtag),
                ("cache-control",
                  (headersGet cached.headers "cache-control").getD ""),
                ("last-modified",
                  (headersGet cached.headers "last-modified").getD "")]⟩
            else none
        | none => none
  | none => none

/-- The Last-Modified block of `createConditionalResponse`: entered only
when `If-Modified-Since` is truthy and `If-None-Match` is falsy; a
bodyless 304 when the entry's time parses and is at or before the client's
time (`NaN` comparisons are false). -/
def modifiedSinceConditional (clientEtag clientModifiedSince : Option String)
    (cached : JsResponse) (parseDate : String → Option Int) :
    Option JsResponse :=
  match clientModifiedSince with
  | some cms =>
      if cms ≠ "" ∧ jsTruthy clientEtag = false then
        match headersGet cached.headers "last-modified" with
        | some lm =>
            if lm = "" then none
            else
              match parseDate cms, parseDate lm with
              | some clientTime, some serverTime =>
                  if serverTime ≤ clientTime then
                    some ⟨304, [("last-modified", lm),
                      ("cache-control",
                        (headersGet cached.headers "cache-control").getD "")]⟩
                  else none
              | _, _ => none
        | none => none
      else none
  | none => none

/-- Embedding of `createConditionalResponse` (src/lib/cache.ts): the ETag
block first; if it produced no 304, the Last-Modified block; `none` models
the `null` fall-through to the full cached body. -/
def createConditionalResponse (reqHeaders : List (String × String))
    (cached : JsResponse) (parseDate : String → Option Int) :
    Option JsResponse :=
  match etagConditional (headersGet reqHeaders "if-none-match") cached with
  | some r => some r
  | none =>
      modifiedSinceConditional (headersGet reqHeaders "if-none-match")
        (headersGet reqHeaders "if-modified-since") cached parseDate

/-! ### Prefix validation and sanitization
(`validateAndSanitizePrefix`, `normalizePath` and helpers,
src/lib/security.ts).  The 400 `HTTPException`s thrown by the helpers are
modelled as `ValidationError` values in `Except`; `toLowerCase` is
modelled on the ASCII range (all traversal patterns are ASCII). -/

/-- The distinct 400 errors thrown while validating a prefix. -/
inductive ValidationError where
  | tooLong
  | traversalDetected
  | invalidCharacters
  | depthExceeded
  | segmentsTooLong
deriving DecidableEq, Repr

/-- JS `String.prototype.trim`: strip leading and trailing whitespace and
line terminators. -/
def jsTrim (s : String) : String :=
  String.mk (((s.data.dropWhile isJsWhitespace).reverse.dropWhile
    isJsWhitespace).reverse)

/-- JS `s.startsWith(p)`. -/
def jsStartsWith (s p : String) : Bool := listStartsWith s.data p.data

/-- JS `s.endsWith(p)`. -/
def jsEndsWith (s p : String) : Bool :=
  listStartsWith s.data.reverse p.data.reverse

/-- `validatePrefixLength` (src/lib/security.ts): error when the length
exceeds the configured maximum. -/
def validatePrefixLength (p : String) (maxAllowedLength : Nat) :
    Option ValidationError :=
  if p.length > maxAllowedLength then some .tooLong else none

/-- The `traversalPatterns` list of `validateNoPathTraversal`. -/
def traversalPatterns : List String :=
  ["../", "..\\", "..", "%2e%2e", "%2E%2E", "%2e%2e%2f", "%2E%2E%2F",
    "%2e%2e%5c", "%2E%2E%5C"]

/-- `validateNoPathTraversal` (src/lib/security.ts): substring scan of the
lowercased prefix against `traversalPatterns`, then the extra
starts/ends/includes/equals checks on the raw prefix. -/
def validateNoPathTraversal (p : String) : Option ValidationError :=
  let lowercase := asciiLower p
  if traversalPatterns.any (fun pat => strIncludes lowercase pat) then
    some .traversalDetected
  else if jsStartsWith p "../" || jsEndsWith p "/.." ||
      strIncludes p "/../" || p == ".." then
    some .traversalDetected
  else none

/-- Characters stripped by `sanitizeAndValidateCharacters`:
`[\u0000-\u001F\u007F\u0080-\u009F]`. -/
def isStrippedControl (c : Char) : Bool :=
  decide (c.toNat ≤ 0x1F ∨ c.toNat = 0x7F ∨
    (0x80 ≤ c.toNat ∧ c.toNat ≤ 0x9F))

/-- The allowed-character class `[a-zA-Z0-9\-_.\/']` (39 is the
apostrophe). -/
def allowedPrefixChar (c : Char) : Bool :=
  decide ((48 ≤ c.toNat ∧ c.toNat ≤ 57) ∨ (65 ≤ c.toNat ∧ c.toNat ≤ 90) ∨
    (97 ≤ c.toNat ∧ c.toNat ≤ 122) ∨ c.toNat = 45 ∨ c.toNat = 95 ∨
    c.toNat = 46 ∨ c.toNat = 47 ∨ c.toNat = 39)

/-- `sanitizeAndValidateCharacters` (src/lib/security.ts): strip control
characters, then require every remaining character to be in the
allowlist. -/
def sanitizeAndValidateCharacters (p : String) :
    Except ValidationError String :=
  let withoutControlChars :=
    String.mk (p.data.filter (fun c => !isStrippedControl c))
  if withoutControlChars.data.all allowedPrefixChar then
    .ok withoutControlChars
  else .error .invalidCharacters

/-- One pass of a JS `replace(/X+/g, r)` for a single-character class:
each maximal run of characters satisfying `p` becomes one `r`.  `prev`
records whether the previous character was in the run. -/
def collapseRunsAux (p : Char → Bool) (r : Char) : Bool → List Char → List Char
  | _, [] => []
  | prev, c :: t =>
      if p c then
        if prev then collapseRunsAux p r true t
        else r :: collapseRunsAux p r true t
      else c :: collapseRunsAux p r false t

/-- `replace(/X+/g, r)` on a character list. -/
def collapseRuns (p : Char → Bool) (r : Char) (l : List Char) : List Char :=
  collapseRunsAux p r false l

/-- `normalizePath` (src/lib/security.ts): `replace(/\\+/g, "/")`, then
`replace(/\/+/g, "/")`, then strip a single leading slash.  No trailing
slash is removed. -/
def normalizePath (p : String) : String :=
  let step1 := collapseRuns (fun c => c == '\\') '/' p.data
  let step2 := collapseRuns (fun c => c == '/') '/' step1
  let step3 :=
    match step2 with
    | [] => []
    | c :: rest => if c = '/' then rest else c :: rest
  String.mk step3

/-- JS `split("/")` on a character list (nonempty separator, no limit). -/
def splitOnSlash : List Char → List (List Char)
  | [] => [[]]
  | c :: t =>
      if c = '/' then [] :: splitOnSlash t
      else
        match splitOnSlash t with
        | [] => [c] :: []
        | s :: rest => (c :: s) :: rest

/-- `validatePrefixStructure` (src/lib/security.ts): empty prefixes pass;
otherwise the `split("/")` depth must not exceed the maximum, and the
average segment length `prefix.length / depth` must not exceed 128
(equivalently `length > 128 * depth` errors, as depth > 0). -/
def validatePrefixStructure (p : String) (maxAllowedDepth : Nat) :
    Option ValidationError :=
  if p = "" then none
  else
    let currentDepth := (splitOnSlash p.data).length
    if currentDepth > maxAllowedDepth then some .depthExceeded
    else if p.length > 128 * currentDepth then some .segmentsTooLong
    else none

/-- Embedding of `validateAndSanitizePrefix` (src/lib/security.ts) with the
configured limits as parameters (`PREFIX_MAX_LENGTH` default 512,
`PREFIX_MAX_DEPTH` default 10): falsy prefix passes through as `""`;
otherwise trim, length check, traversal check, character sanitization,
path normalization, structure check. -/
def validateAndSanitizePrefix (p : String)
    (maxPrefixLength maxPrefixDepth : Nat) : Except ValidationError String :=
  if p = "" then .ok ""
  else
    let sanitized := jsTrim p
    match validatePrefixLength sanitized maxPrefixLength with
    | some e => .error e
    | none =>
      match validateNoPathTraversal sanitized with
      | some e => .error e
      | none =>
        match sanitizeAndValidateCharacters sanitized with
        | .error e => .error e
        | .ok s₂ =>
          let s₃ := normalizePath s₂
          match validatePrefixStructure s₃ maxPrefixDepth with
          | some e => .error e
          | none => .ok s₃

/-! ### Theorems -/

theorem cmpNatList_eq_iff (l₁ l₂ : List Nat) :
    cmpNatList l₁ l₂ = .eq ↔ l₁ = l₂ := by
  induction l₁ generalizing l₂ with
  | nil => cases l₂ <;> simp [cmpNatList]
  | cons a as ih =>
      cases l₂ with
      | nil => simp [cmpNatList]
      | cons b bs =>
          by_cases hab : a < b
          · simp [cmpNatList, hab]
            omega
          · by_cases hba : b < a
            · simp [cmpNatList, hab, hba]
              omega
            · have : a = b := by omega
              subst this
              simp [cmpNatList, hab, hba, ih]

theorem cmpNatList_swap (l₁ l₂ : List Nat) :
    cmpNatList l₁ l₂ = (cmpNatList l₂ l₁).swap := by
  induction l₁ generalizing l₂ with
  | nil => cases l₂ <;> simp [cmpNatList, Ordering.swap]
  | cons a as ih =>
      cases l₂ with
      | nil => simp [cmpNatList, Ordering.swap]
      | cons b bs =>
          by_cases hab : a < b
          · have hba : ¬ b < a := by omega
            simp [cmpNatList, hab, hba, Ordering.swap]
          · by_cases hba : b < a
            · simp [cmpNatList, hab, hba, Ordering.swap]
            · simp [cmpNatList, hab, hba, ih]

theorem cmpNatList_lt_trans : ∀ {l₁ l₂ l₃ : List Nat},
    cmpNatList l₁ l₂ = .lt → cmpNatList l₂ l₃ = .lt → cmpNatList l₁ l₃ = .lt
  | [], [], _, h₁, _ => by simp [cmpNatList] at h₁
  | [], _ :: _, [], _, h₂ => by simp [cmpNatList] at h₂
  | [], _ :: _, _ :: _, _, _ => rfl
  | _ :: _, [], _, h₁, _ => by simp [cmpNatList] at h₁
  | _ :: _, _ :: _, [], _, h₂ => by simp [cmpNatList] at h₂
  | a :: as, b :: bs, c :: cs, h₁, h₂ => by
      simp only [cmpNatList] at h₁ h₂ ⊢
      by_cases hab : a < b
      · by_cases hbc : b < c
        · have hac : a < c := by omega
          rw [if_pos hac]
        · by_cases hcb : c < b
          · rw [if_neg hbc, if_pos hcb] at h₂
            exact absurd h₂ (by simp)
          · have hac : a < c := by omega
            rw [if_pos hac]
      · by_cases hba : b < a
        · rw [if_neg hab, if_pos hba] at h₁
          exact absurd h₁ (by simp)
        · by_cases hbc : b < c
          · have hac : a < c := by omega
            rw [if_pos hac]
          · by_cases hcb : c < b
            · rw [if_neg hbc, if_pos hcb] at h₂
              exact absurd h₂ (by simp)
            · have hac : ¬ a < c := by omega
              have hca : ¬ c < a := by omega
              rw [if_neg hab, if_neg hba] at h₁
              rw [if_neg hbc, if_neg hcb] at h₂
              rw [if_neg hac, if_neg hca]
              exact cmpNatList_lt_trans h₁ h₂

theorem insertLe_perm (le : α → α → Bool) (a : α) (l : List α) :
    (insertLe le a l).Perm (a :: l) := by
  induction l with
  | nil => simp [insertLe]
  | cons b t ih =>
      by_cases h : le a b
      · simp [insertLe, h]
      · simp only [insertLe, h, if_neg, Bool.false_eq_true, if_false]
        exact (List.Perm.cons b ih).trans (List.Perm.swap a b t)

theorem sortByLe_perm (le : α → α → Bool) (l : List α) :
    (sortByLe le l).Perm l := by
  induction l with
  | nil => simp [sortByLe]
  | cons a t ih =>
      exact (insertLe_perm le a (sortByLe le t)).trans (List.Perm.cons a ih)

theorem pairwise_insertLe (le : α → α → Bool)
    (htot : ∀ a b, le a b = true ∨ le b a = true)
    (htrans : ∀ a b c, le a b = true → le b c = true → le a c = true)
    (a : α) (l : List α) (h : l.Pairwise (le · · = true)) :
    (insertLe le a l).Pairwise (le · · = true) := by
  induction l with
  | nil => simp [insertLe]
  | cons b t ih =>
      rcases List.pairwise_cons.mp h with ⟨hb, ht⟩
      by_cases hab : le a b
      · simp only [insertLe, hab, if_pos]
        refine List.pairwise_cons.mpr ⟨?_, h⟩
        intro x hx
        rcases List.mem_cons.mp hx with rfl | hx
        · exact hab
        · exact htrans a b x hab (hb x hx)
      · simp only [insertLe, hab, Bool.false_eq_true, if_false]
        refine List.pairwise_cons.mpr ⟨?_, ih ht⟩
        intro x hx
        have hx' : x ∈ a :: t := (insertLe_perm le a t).mem_iff.mp hx
        rcases List.mem_cons.mp hx' with h | hx'
        · rcases htot a b with hab' | hba
          · exact absurd hab' hab
          · rw [h]
            exact hba
        · exact hb x hx'

theorem sortByLe_pairwise (le : α → α → Bool)
    (htot : ∀ a b, le a b = true ∨ le b a = true)
    (htrans : ∀ a b c, le a b = true → le b c = true → le a c = true)
    (l : List α) : (sortByLe le l).Pairwise (le · · = true) := by
  induction l with
  | nil => simp [sortByLe]
  | cons a t ih => exact pairwise_insertLe le htot htrans a (sortByLe le t) ih

/-- Two sorted lists that are permutations of each other and whose elements
are pairwise antisymmetric for `le` are equal. -/
theorem perm_pairwise_sorted_eq (le : α → α → Bool) :
    ∀ {l₁ l₂ : List α}, l₁.Perm l₂ →
    l₁.Pairwise (le · · = true) → l₂.Pairwise (le · · = true) →
    (∀ a ∈ l₁, ∀ b ∈ l₁, le a b = true → le b a = true → a = b) →
    l₁ = l₂
  | [], l₂, hp, _, _, _ => by simpa using hp.nil_eq
  | a :: t₁, [], hp, _, _, _ => by
      exact absurd hp.symm.nil_eq (by simp)
  | a :: t₁, b :: t₂, hp, hs₁, hs₂, hanti => by
      rcases List.pairwise_cons.mp hs₁ with ⟨ha, ht₁⟩
      rcases List.pairwise_cons.mp hs₂ with ⟨hb, ht₂⟩
      have hab : a = b := by
        by_contra hne
        have hamem : a ∈ b :: t₂ := hp.mem_iff.mp (by simp)
        have hbmem : b ∈ a :: t₁ := hp.symm.mem_iff.mp (by simp)
        have ha2 : a ∈ t₂ := by
          rcases List.mem_cons.mp hamem with rfl | h
          · exact absurd rfl hne
          · exact h
        have hb1 : b ∈ t₁ := by
          rcases List.mem_cons.mp hbmem with h | h
          · exact absurd h.symm hne
          · exact h
        have h₁ : le a b = true := ha b hb1
        have h₂ : le b a = true := hb a ha2
        exact hne (hanti a (by simp) b (List.mem_cons_of_mem a hb1) h₁ h₂)
      subst hab
      have htail : t₁.Perm t₂ := hp.cons_inv
      have : t₁ = t₂ :=
        perm_pairwise_sorted_eq le htail ht₁ ht₂
          (fun x hx y hy => hanti x (List.mem_cons_of_mem a hx)
            y (List.mem_cons_of_mem a hy))
      rw [this]

/-! ### Characters, UTF-16, UTF-8 -/

theorem char_toNat_lt (c : Char) : c.toNat < 0x110000 := by
  have := c.valid
  rcases this with h | ⟨h1, h2⟩
  · simp only [Char.toNat]
    omega
  · simp only [Char.toNat]
    omega

theorem char_toNat_inj {c₁ c₂ : Char} (h : c₁.toNat = c₂.toNat) : c₁ = c₂ :=
  Char.eq_of_val_eq (UInt32.ext h)

/-- UTF-8 is a prefix code: no encoding is a proper prefix of another. -/
theorem utf8Nat_append_inj {n₁ n₂ : Nat} (v₁ : n₁ < 0x110000) (v₂ : n₂ < 0x110000)
    {t₁ t₂ : List Nat} (h : utf8Nat n₁ ++ t₁ = utf8Nat n₂ ++ t₂) :
    n₁ = n₂ ∧ t₁ = t₂ := by
  unfold utf8Nat at h
  split_ifs at h <;>
    simp only [List.cons_append, List.nil_append, List.cons.injEq] at h <;>
    refine ⟨by omega, ?_⟩ <;> first | tauto | (exfalso; omega)

theorem utf8Nat_bytes_lt {n : Nat} (v : n < 0x110000) :
    ∀ x ∈ utf8Nat n, x < 256 := by
  intro x hx
  unfold utf8Nat at hx
  split_ifs at hx <;> simp only [List.mem_cons, List.mem_singleton,
    List.not_mem_nil, or_false] at hx <;> omega

theorem utf8Nat_ne_nil (n : Nat) : utf8Nat n ≠ [] := by
  unfold utf8Nat
  split_ifs <;> simp

theorem utf8Nat_len {n b : Nat} {r : List Nat} (v : n < 0x110000)
    (h : utf8Nat n = b :: r) : r.length + 1 = utf8len b := by
  unfold utf8Nat at h
  split_ifs at h with h1 h2 h3 <;>
    simp only [List.cons.injEq] at h <;>
    rcases h with ⟨hb, hr⟩ <;>
    subst hb <;> subst hr <;>
    simp only [utf8len, List.length, List.length_nil] <;>
    split_ifs <;> omega

theorem hexDigitUpper_inj : ∀ m < 16, ∀ n < 16,
    hexDigitUpper m = hexDigitUpper n → m = n := by decide

theorem pctBytes_cons (b : Nat) (r : List Nat) :
    pctBytes (b :: r) = pctByte b ++ pctBytes r := by
  simp [pctBytes]

theorem pctByte_append_inj {b₁ b₂ : Nat} (v₁ : b₁ < 256) (v₂ : b₂ < 256)
    {u₁ u₂ : List Char} (h : pctByte b₁ ++ u₁ = pctByte b₂ ++ u₂) :
    b₁ = b₂ ∧ u₁ = u₂ := by
  simp only [pctByte, List.cons_append, List.nil_append, List.cons.injEq,
    true_and] at h
  obtain ⟨h1, h2, h3⟩ := h
  have e1 := hexDigitUpper_inj (b₁ / 16) (by omega) (b₂ / 16) (by omega) h1
  have e2 := hexDigitUpper_inj (b₁ % 16) (by omega) (b₂ % 16) (by omega) h2
  exact ⟨by omega, h3⟩

theorem pctBytes_append_inj : ∀ {bs₁ bs₂ : List Nat} {u₁ u₂ : List Char},
    bs₁.length = bs₂.length → (∀ b ∈ bs₁, b < 256) → (∀ b ∈ bs₂, b < 256) →
    pctBytes bs₁ ++ u₁ = pctBytes bs₂ ++ u₂ → bs₁ = bs₂ ∧ u₁ = u₂
  | [], [], u₁, u₂, _, _, _, h => ⟨rfl, by simpa [pctBytes] using h⟩
  | [], _ :: _, _, _, hlen, _, _, _ => by simp at hlen
  | _ :: _, [], _, _, hlen, _, _, _ => by simp at hlen
  | b₁ :: r₁, b₂ :: r₂, u₁, u₂, hlen, hb₁, hb₂, h => by
      rw [pctBytes_cons, pctBytes_cons, List.append_assoc, List.append_assoc] at h
      obtain ⟨hb, ht⟩ := pctByte_append_inj (hb₁ b₁ (by simp)) (hb₂ b₂ (by simp)) h
      obtain ⟨hr, hu⟩ := pctBytes_append_inj (by simpa using hlen)
        (fun b hb => hb₁ b (List.mem_cons_of_mem _ hb))
        (fun b hb => hb₂ b (List.mem_cons_of_mem _ hb)) ht
      exact ⟨by rw [hb, hr], hu⟩

/-- Percent-escaped UTF-8 is still a prefix code. -/
theorem pctUtf8_append_inj {n₁ n₂ : Nat} (v₁ : n₁ < 0x110000) (v₂ : n₂ < 0x110000)
    {u₁ u₂ : List Char}
    (h : pctBytes (utf8Nat n₁) ++ u₁ = pctBytes (utf8Nat n₂) ++ u₂) :
    n₁ = n₂ ∧ u₁ = u₂ := by
  obtain ⟨b₁, r₁, e₁⟩ := List.exists_cons_of_ne_nil (utf8Nat_ne_nil n₁)
  obtain ⟨b₂, r₂, e₂⟩ := List.exists_cons_of_ne_nil (utf8Nat_ne_nil n₂)
  rw [e₁, e₂, pctBytes_cons, pctBytes_cons, List.append_assoc, List.append_assoc] at h
  have bnd₁ : b₁ < 256 := utf8Nat_bytes_lt v₁ b₁ (by rw [e₁]; simp)
  have bnd₂ : b₂ < 256 := utf8Nat_bytes_lt v₂ b₂ (by rw [e₂]; simp)
  obtain ⟨hb, ht⟩ := pctByte_append_inj bnd₁ bnd₂ h
  have l₁ := utf8Nat_len v₁ e₁
  have l₂ := utf8Nat_len v₂ e₂
  have hlen : r₁.length = r₂.length := by rw [hb] at l₁; omega
  obtain ⟨hr, hu⟩ := pctBytes_append_inj hlen
    (fun b hbm => utf8Nat_bytes_lt v₁ b (by rw [e₁]; exact List.mem_cons_of_mem _ hbm))
    (fun b hbm => utf8Nat_bytes_lt v₂ b (by rw [e₂]; exact List.mem_cons_of_mem _ hbm)) ht
  have : utf8Nat n₁ ++ ([] : List Nat) = utf8Nat n₂ ++ [] := by
    rw [List.append_nil, List.append_nil, e₁, e₂, hb, hr]
  exact ⟨(utf8Nat_append_inj v₁ v₂ this).1, hu⟩

theorem pctBytes_utf8_head (n : Nat) :
    ∃ d₁ d₂ rest, pctBytes (utf8Nat n) = '%' :: d₁ :: d₂ :: rest := by
  unfold utf8Nat
  split_ifs <;> exact ⟨_, _, _, rfl⟩

/-- Case analysis on the three serialization shapes of a character. -/
theorem formEncodeChar_shape (c : Char) :
    (formSafe c = true ∧ formEncodeChar c = [c]) ∨
    (formSafe c = false ∧ c = ' ' ∧ formEncodeChar c = ['+']) ∨
    (formSafe c = false ∧ c ≠ ' ' ∧ formEncodeChar c = pctBytes (utf8Nat c.toNat)) := by
  unfold formEncodeChar
  split_ifs with a b
  · exact Or.inl ⟨a, rfl⟩
  · exact Or.inr (Or.inl ⟨by simpa using a, b, rfl⟩)
  · exact Or.inr (Or.inr ⟨by simpa using a, b, rfl⟩)

theorem formEncodeChar_append_inj {c₁ c₂ : Char} {t₁ t₂ : List Char}
    (h : formEncodeChar c₁ ++ t₁ = formEncodeChar c₂ ++ t₂) :
    c₁ = c₂ ∧ t₁ = t₂ := by
  rcases formEncodeChar_shape c₁ with ⟨s₁, e₁⟩ | ⟨s₁, sp₁, e₁⟩ | ⟨s₁, sp₁, e₁⟩ <;>
    rcases formEncodeChar_shape c₂ with ⟨s₂, e₂⟩ | ⟨s₂, sp₂, e₂⟩ | ⟨s₂, sp₂, e₂⟩ <;>
    rw [e₁, e₂] at h
  · simpa using h
  · exfalso
    simp only [List.cons_append, List.nil_append, List.cons.injEq] at h
    rw [h.1] at s₁
    exact absurd s₁ (by decide)
  · exfalso
    obtain ⟨d₁, d₂, rest, hp⟩ := pctBytes_utf8_head c₂.toNat
    rw [hp] at h
    simp only [List.cons_append, List.nil_append, List.cons.injEq] at h
    rw [h.1] at s₁
    exact absurd s₁ (by decide)
  · exfalso
    simp only [List.cons_append, List.nil_append, List.cons.injEq] at h
    rw [← h.1] at s₂
    exact absurd s₂ (by decide)
  · refine ⟨by rw [sp₁, sp₂], by simpa using h⟩
  · exfalso
    obtain ⟨d₁, d₂, rest, hp⟩ := pctBytes_utf8_head c₂.toNat
    rw [hp] at h
    simp only [List.cons_append, List.nil_append, List.cons.injEq] at h
    exact absurd h.1 (by decide)
  · exfalso
    obtain ⟨d₁, d₂, rest, hp⟩ := pctBytes_utf8_head c₁.toNat
    rw [hp] at h
    simp only [List.cons_append, List.nil_append, List.cons.injEq] at h
    rw [← h.1] at s₂
    exact absurd s₂ (by decide)
  · exfalso
    obtain ⟨d₁, d₂, rest, hp⟩ := pctBytes_utf8_head c₁.toNat
    rw [hp] at h
    simp only [List.cons_append, List.nil_append, List.cons.injEq] at h
    exact absurd h.1 (by decide)
  · obtain ⟨hn, ht⟩ := pctUtf8_append_inj (char_toNat_lt c₁) (char_toNat_lt c₂) h
    exact ⟨char_toNat_inj hn, ht⟩

theorem formEncodeChar_ne_nil (c : Char) : formEncodeChar c ≠ [] := by
  unfold formEncodeChar
  split_ifs with s₁ s₂
  · simp
  · simp
  · obtain ⟨d₁, d₂, rest, hp⟩ := pctBytes_utf8_head c.toNat
    rw [show utf8Bytes c = utf8Nat c.toNat from rfl, hp]
    simp

theorem formEncode_join_inj : ∀ {l₁ l₂ : List Char},
    (l₁.map formEncodeChar).flatten = (l₂.map formEncodeChar).flatten → l₁ = l₂
  | [], [], _ => rfl
  | [], c :: t, h => by
      exfalso
      simp only [List.map_nil, List.flatten_nil, List.map_cons,
        List.flatten_cons] at h
      exact formEncodeChar_ne_nil c (by
        rcases List.append_eq_nil.mp h.symm with ⟨h1, _⟩
        exact h1)
  | c :: t, [], h => by
      exfalso
      simp only [List.map_nil, List.flatten_nil, List.map_cons,
        List.flatten_cons] at h
      exact formEncodeChar_ne_nil c (by
        rcases List.append_eq_nil.mp h with ⟨h1, _⟩
        exact h1)
  | c₁ :: t₁, c₂ :: t₂, h => by
      simp only [List.map_cons, List.flatten_cons] at h
      obtain ⟨hc, ht⟩ := formEncodeChar_append_inj h
      rw [hc, formEncode_join_inj ht]

theorem formUrlEncode_inj {s₁ s₂ : String}
    (h : formUrlEncode s₁ = formUrlEncode s₂) : s₁ = s₂ := by
  unfold formUrlEncode at h
  have hdata : (s₁.data.map formEncodeChar).flatten
      = (s₂.data.map formEncodeChar).flatten := congrArg String.data h
  cases s₁
  cases s₂
  exact congrArg String.mk (formEncode_join_inj hdata)

/-- Every character of a urlencoded serialization is a safe character, `+`,
or part of a percent escape; the metacharacters `& = ? #` never occur. -/
theorem formEncodeChar_mem {c x : Char} (hx : x ∈ formEncodeChar c) :
    formSafe x = true ∨ x = '+' ∨ x = '%' := by
  unfold formEncodeChar at hx
  split_ifs at hx with s₁ s₂
  · left
    rcases List.mem_singleton.mp hx with rfl
    exact s₁
  · right
    left
    exact List.mem_singleton.mp hx
  · have hb : ∀ b ∈ utf8Bytes c, b < 256 := utf8Nat_bytes_lt (char_toNat_lt c)
    simp only [pctBytes, List.mem_flatten, List.mem_map] at hx
    obtain ⟨l, ⟨b, hbm, rfl⟩, hxl⟩ := hx
    simp only [pctByte, List.mem_cons, List.mem_singleton, List.not_mem_nil, or_false] at hxl
    rcases hxl with rfl | rfl | rfl
    · right; right; rfl
    · left
      have : b / 16 < 16 := by have := hb b hbm; omega
      revert this
      generalize b / 16 = m
      revert m
      decide
    · left
      have : b % 16 < 16 := by omega
      revert this
      generalize b % 16 = m
      revert m
      decide

theorem formEncodeChar_not_meta {c x : Char} (hx : x ∈ formEncodeChar c) :
    x ≠ '&' ∧ x ≠ '=' ∧ x ≠ '?' := by
  rcases formEncodeChar_mem hx with hs | rfl | rfl
  · refine ⟨?_, ?_, ?_⟩ <;> rintro rfl <;> revert hs <;> decide
  · exact ⟨by decide, by decide, by decide⟩
  · exact ⟨by decide, by decide, by decide⟩

/-! ### Generic comparator lemmas -/

theorem cmpLe_total (cmp : α → α → Ordering)
    (hswap : ∀ a b, cmp a b = (cmp b a).swap) (a b : α) :
    cmpLe cmp a b = true ∨ cmpLe cmp b a = true := by
  unfold cmpLe
  rcases hgt : cmp a b with _ | _ | _
  · left; rfl
  · left; rfl
  · right
    have := hswap a b
    rw [hgt] at this
    rcases hba : cmp b a with _ | _ | _
    · rfl
    · rfl
    · rw [hba] at this
      simp [Ordering.swap] at this

theorem cmpLe_trans (cmp : α → α → Ordering)
    (heq : ∀ a b, cmp a b = .eq ↔ a = b)
    (hlt : ∀ a b c, cmp a b = .lt → cmp b c = .lt → cmp a c = .lt)
    (a b c : α) (h₁ : cmpLe cmp a b = true) (h₂ : cmpLe cmp b c = true) :
    cmpLe cmp a c = true := by
  unfold cmpLe at h₁ h₂ ⊢
  rcases hab : cmp a b with _ | _ | _ <;> rw [hab] at h₁
  · rcases hbc : cmp b c with _ | _ | _ <;> rw [hbc] at h₂
    · rw [hlt a b c hab hbc]
    · have : b = c := (heq b c).mp hbc
      rw [← this, hab]
    · simp at h₂
  · have : a = b := (heq a b).mp hab
    rw [this]
    exact h₂
  · simp at h₁

theorem cmpLe_antisymm (cmp : α → α → Ordering)
    (hswap : ∀ a b, cmp a b = (cmp b a).swap)
    (heq : ∀ a b, cmp a b = .eq ↔ a = b)
    (a b : α) (h₁ : cmpLe cmp a b = true) (h₂ : cmpLe cmp b a = true) :
    a = b := by
  unfold cmpLe at h₁ h₂
  rcases hab : cmp a b with _ | _ | _ <;> rw [hab] at h₁
  · have := hswap a b
    rw [hab] at this
    rcases hba : cmp b a with _ | _ | _ <;> rw [hba] at this h₂
    · simp [Ordering.swap] at this
    · simp [Ordering.swap] at this
    · simp at h₂
  · exact (heq a b).mp hab
  · simp at h₁

theorem ordLtThen (x : Ordering) : Ordering.lt.then x = .lt := rfl

theorem ordGtThen (x : Ordering) : Ordering.gt.then x = .gt := rfl

theorem ordEqThen (x : Ordering) : Ordering.eq.then x = x := rfl

theorem charPair_inj {c₁ c₂ : Char} (h₁ : charPrimary c₁ = charPrimary c₂)
    (h₂ : charCaseWeight c₁ = charCaseWeight c₂) : c₁ = c₂ := by
  unfold charPrimary at h₁
  unfold charCaseWeight at h₂
  apply char_toNat_inj
  split_ifs at h₁ h₂ <;> omega

theorem charMaps_inj : ∀ {l₁ l₂ : List Char},
    l₁.map charPrimary = l₂.map charPrimary →
    l₁.map charCaseWeight = l₂.map charCaseWeight → l₁ = l₂
  | [], [], _, _ => rfl
  | [], _ :: _, h, _ => by simp at h
  | _ :: _, [], h, _ => by simp at h
  | c₁ :: t₁, c₂ :: t₂, h₁, h₂ => by
      simp only [List.map_cons, List.cons.injEq] at h₁ h₂
      rw [charPair_inj h₁.1 h₂.1, charMaps_inj h₁.2 h₂.2]

theorem localeCmp_eq_iff (a b : String) : localeCmp a b = .eq ↔ a = b := by
  constructor
  · intro h
    unfold localeCmp at h
    rcases hp : cmpNatList (a.data.map charPrimary) (b.data.map charPrimary)
      with _ | _ | _ <;> rw [hp] at h
    · rw [ordLtThen] at h
      cases h
    · rw [ordEqThen] at h
      have e₁ := (cmpNatList_eq_iff _ _).mp hp
      have e₂ := (cmpNatList_eq_iff _ _).mp h
      have hd : a.data = b.data := charMaps_inj e₁ e₂
      cases a
      cases b
      exact congrArg String.mk hd
    · rw [ordGtThen] at h
      cases h
  · rintro rfl
    unfold localeCmp
    rw [(cmpNatList_eq_iff _ _).mpr rfl, (cmpNatList_eq_iff _ _).mpr rfl]
    rfl

theorem localeCmp_swap (a b : String) : localeCmp a b = (localeCmp b a).swap := by
  unfold localeCmp
  rw [cmpNatList_swap (a.data.map charPrimary), cmpNatList_swap (a.data.map charCaseWeight)]
  rcases cmpNatList (b.data.map charPrimary) (a.data.map charPrimary)
    with _ | _ | _ <;> rfl

theorem localeCmp_lt_trans {a b c : String} (h₁ : localeCmp a b = .lt)
    (h₂ : localeCmp b c = .lt) : localeCmp a c = .lt := by
  unfold localeCmp at h₁ h₂ ⊢
  rcases hab : cmpNatList (a.data.map charPrimary) (b.data.map charPrimary)
    with _ | _ | _ <;> rw [hab] at h₁ <;>
  rcases hbc : cmpNatList (b.data.map charPrimary) (c.data.map charPrimary)
    with _ | _ | _ <;> rw [hbc] at h₂
  · rw [cmpNatList_lt_trans hab hbc, ordLtThen]
  · have e := (cmpNatList_eq_iff _ _).mp hbc
    rw [← e, hab, ordLtThen]
  · rw [ordGtThen] at h₂
    cases h₂
  · have e := (cmpNatList_eq_iff _ _).mp hab
    rw [e, hbc, ordLtThen]
  · have e₁ := (cmpNatList_eq_iff _ _).mp hab
    have e₂ := (cmpNatList_eq_iff _ _).mp hbc
    rw [e₁, e₂, (cmpNatList_eq_iff _ _).mpr rfl, ordEqThen]
    rw [ordEqThen] at h₁ h₂
    exact cmpNatList_lt_trans h₁ h₂
  · rw [ordGtThen] at h₂
    cases h₂
  · rw [ordGtThen] at h₁
    cases h₁
  · rw [ordGtThen] at h₁
    cases h₁
  · rw [ordGtThen] at h₁
    cases h₁

theorem flatten_map_singleton (g : Char → List Char) :
    ∀ l : List Char, (∀ x ∈ l, g x = [x]) → (l.map g).flatten = l
  | [], _ => rfl
  | x :: t, h => by
      simp only [List.map_cons, List.flatten_cons]
      rw [h x (by simp),
        flatten_map_singleton g t (fun y hy => h y (List.mem_cons_of_mem x hy))]
      rfl

theorem hexDigitUpper_not_extra : ∀ m < 16, rfcExtra (hexDigitUpper m) = false := by
  decide

theorem rfcReplaceChar_pct (c : Char) :
    ∀ x ∈ pctBytes (utf8Bytes c), rfcReplaceChar x = [x] := by
  intro x hmem
  have hb : ∀ b ∈ utf8Bytes c, b < 256 := utf8Nat_bytes_lt (char_toNat_lt c)
  simp only [pctBytes, List.mem_flatten, List.mem_map] at hmem
  obtain ⟨l, ⟨b, hbm, rfl⟩, hxl⟩ := hmem
  simp only [pctByte, List.mem_cons, List.mem_singleton,
    List.not_mem_nil, or_false] at hxl
  unfold rfcReplaceChar
  rcases hxl with rfl | rfl | rfl
  · rw [if_neg (by decide)]
  · rw [if_neg ?_]
    simp only [Bool.not_eq_true]
    exact hexDigitUpper_not_extra (b / 16) (by have := hb b hbm; omega)
  · rw [if_neg ?_]
    simp only [Bool.not_eq_true]
    exact hexDigitUpper_not_extra (b % 16) (by omega)

theorem rfcChar_eq (c : Char) :
    ((encodeURIComponentChar c).map rfcReplaceChar).flatten
      = if unreservedRFC3986 c then [c] else pctBytes (utf8Bytes c) := by
  unfold encodeURIComponentChar
  by_cases hu : uriUnescaped c = true
  · rw [if_pos hu]
    have hu' := of_decide_eq_true hu
    by_cases hx : rfcExtra c = true
    · have hx' := of_decide_eq_true hx
      have hur : unreservedRFC3986 c = false := decide_eq_false (by omega)
      rw [hur]
      simp only [List.map_cons, List.map_nil, List.flatten_cons,
        List.flatten_nil, List.append_nil, rfcReplaceChar, if_pos hx,
        Bool.false_eq_true, if_false]
      have hsmall : c.toNat < 0x80 := by omega
      unfold utf8Bytes utf8Nat
      rw [if_pos hsmall]
      simp [pctBytes]
    · have hxf : rfcExtra c = false := by simpa using hx
      have hx' := of_decide_eq_false hxf
      have hur : unreservedRFC3986 c = true := decide_eq_true (by omega)
      rw [hur]
      simp only [List.map_cons, List.map_nil, List.flatten_cons,
        List.flatten_nil, List.append_nil, rfcReplaceChar, if_neg hx,
        if_true]
  · rw [if_neg hu]
    have huf : uriUnescaped c = false := by simpa using hu
    have hu' := of_decide_eq_false huf
    have hur : unreservedRFC3986 c = false := decide_eq_false (by omega)
    rw [hur]
    simp only [Bool.false_eq_true, if_false]
    exact flatten_map_singleton rfcReplaceChar _ (rfcReplaceChar_pct c)

theorem rfc3986Encode_eq_spec (s : String) :
    rfc3986Encode s = specRfc3986Encode s := by
  unfold rfc3986Encode specRfc3986Encode encodeURIComponentStr
  refine congrArg String.mk ?_
  induction s.data with
  | nil => rfl
  | cons c t ih =>
      simp only [List.map_cons, List.flatten_cons, List.map_append,
        List.flatten_append]
      rw [ih, rfcChar_eq c]

theorem localeLe_total (p q : String × String) :
    localeLe p q = true ∨ localeLe q p = true :=
  cmpLe_total localeCmp localeCmp_swap p.1 q.1

theorem localeLe_trans (p q r : String × String) (h₁ : localeLe p q = true)
    (h₂ : localeLe q r = true) : localeLe p r = true :=
  cmpLe_trans localeCmp localeCmp_eq_iff (fun _ _ _ => localeCmp_lt_trans)
    p.1 q.1 r.1 h₁ h₂

theorem canonicalParams_perm (searchParams : List (String × String))
    (excludeParam : Option String) :
    (canonicalParams searchParams excludeParam).Perm
      (searchParams.filter fun p =>
        match excludeParam with
        | none => true
        | some e => if e = "" then true else p.1 != e) :=
  sortByLe_perm _ _

theorem canonicalParams_sorted (searchParams : List (String × String))
    (excludeParam : Option String) :
    (canonicalParams searchParams excludeParam).Pairwise
      (localeLe · · = true) :=
  sortByLe_pairwise _ localeLe_total localeLe_trans _

/-- Sorting a parameter list whose names are pairwise distinct is
order-canonical: two permutations of each other sort identically. -/
theorem sortByLe_localeLe_perm_eq {l₁ l₂ : List (String × String)}
    (hperm : l₁.Perm l₂)
    (hnd : (l₁.map Prod.fst).Nodup) :
    sortByLe localeLe l₁ = sortByLe localeLe l₂ := by
  apply perm_pairwise_sorted_eq localeLe
  · exact ((sortByLe_perm localeLe l₁).trans hperm).trans
      (sortByLe_perm localeLe l₂).symm
  · exact sortByLe_pairwise _ localeLe_total localeLe_trans l₁
  · exact sortByLe_pairwise _ localeLe_total localeLe_trans l₂
  · intro p hp q hq hle₁ hle₂
    have hname : p.1 = q.1 :=
      cmpLe_antisymm localeCmp localeCmp_swap localeCmp_eq_iff p.1 q.1 hle₁ hle₂
    have hp' : p ∈ l₁ := (sortByLe_perm localeLe l₁).mem_iff.mp hp
    have hq' : q ∈ l₁ := (sortByLe_perm localeLe l₁).mem_iff.mp hq
    exact List.inj_on_of_nodup_map hnd hp' hq' hname

theorem foldl_deleteParam (names : List String) :
    ∀ l : List (String × String),
      names.foldl deleteParam l = l.filter fun p => !(names.contains p.1) := by
  induction names with
  | nil => intro l; simp
  | cons n ns ih =>
      intro l
      have step : List.foldl deleteParam l (n :: ns)
          = ns.foldl deleteParam (deleteParam l n) := rfl
      rw [step, ih (deleteParam l n)]
      unfold deleteParam
      rw [List.filter_filter]
      congr 1
      funext p
      by_cases h1 : p.1 = n
      · simp [h1]
      · simp [h1, bne_iff_ne, Ne, h1]

theorem deleteExcluded_eq_filter (l : List (String × String)) :
    deleteExcluded l = l.filter fun p => !(excludedParams.contains p.1) :=
  foldl_deleteParam excludedParams l

/-- C2: the cache key depends on the query only through the parameters that
survive the exclusion list. -/
theorem generateCacheKey_ignores_excluded (u₁ u₂ : UrlModel)
    (headers : List (String × String)) (version : Option String)
    (hpath : u₁.pathname = u₂.pathname)
    (hfilter : u₁.searchParams.filter (fun p => !(excludedParams.contains p.1))
      = u₂.searchParams.filter (fun p => !(excludedParams.contains p.1))) :
    generateCacheKey u₁ headers version = generateCacheKey u₂ headers version := by
  unfold generateCacheKey cacheKeyParams
  rw [hpath, deleteExcluded_eq_filter, deleteExcluded_eq_filter, hfilter]

/-- Splitting at the first occurrence of a separator character is
unambiguous when neither prefix contains it. -/
theorem append_sep_inj {m : Char} : ∀ {a₁ a₂ b₁ b₂ : List Char},
    m ∉ a₁ → m ∉ a₂ → a₁ ++ m :: b₁ = a₂ ++ m :: b₂ → a₁ = a₂ ∧ b₁ = b₂
  | [], [], _, _, _, _, h => ⟨rfl, by simpa using h⟩
  | [], x :: r, _, _, _, h₂, h => by
      simp only [List.nil_append, List.cons_append, List.cons.injEq] at h
      exact absurd (by rw [h.1]; exact List.mem_cons_self x r) h₂
  | x :: r, [], _, _, h₁, _, h => by
      simp only [List.nil_append, List.cons_append, List.cons.injEq] at h
      exact absurd (by rw [← h.1]; exact List.mem_cons_self x r) h₁
  | x₁ :: r₁, x₂ :: r₂, b₁, b₂, h₁, h₂, h => by
      simp only [List.cons_append, List.cons.injEq] at h
      obtain ⟨hx, ht⟩ := h
      obtain ⟨hr, hb⟩ := append_sep_inj
        (fun hm => h₁ (List.mem_cons_of_mem x₁ hm))
        (fun hm => h₂ (List.mem_cons_of_mem x₂ hm)) ht
      exact ⟨by rw [hx, hr], hb⟩

theorem formUrlEncode_chars {s : String} {x : Char}
    (hx : x ∈ (formUrlEncode s).data) :
    formSafe x = true ∨ x = '+' ∨ x = '%' := by
  unfold formUrlEncode at hx
  simp only [List.mem_flatten, List.mem_map] at hx
  obtain ⟨l, ⟨c, _, rfl⟩, hxl⟩ := hx
  exact formEncodeChar_mem hxl

theorem formUrlEncode_not_meta {s : String} {x : Char}
    (hx : x ∈ (formUrlEncode s).data) : x ≠ '&' ∧ x ≠ '=' ∧ x ≠ '?' := by
  unfold formUrlEncode at hx
  simp only [List.mem_flatten, List.mem_map] at hx
  obtain ⟨l, ⟨c, _, rfl⟩, hxl⟩ := hx
  exact formEncodeChar_not_meta hxl

theorem encodePair_data (p : String × String) :
    (encodePair p).data
      = (formUrlEncode p.1).data ++ '=' :: (formUrlEncode p.2).data := by
  unfold encodePair
  rw [String.data_append, String.data_append]
  simp

theorem amp_not_in_encodePair (p : String × String) :
    '&' ∉ (encodePair p).data := by
  rw [encodePair_data]
  intro hm
  rcases List.mem_append.mp hm with h | h
  · exact (formUrlEncode_not_meta h).1 rfl
  · rcases List.mem_cons.mp h with h | h
    · cases h
    · exact (formUrlEncode_not_meta h).1 rfl

theorem qmark_not_in_encodePair (p : String × String) :
    '?' ∉ (encodePair p).data := by
  rw [encodePair_data]
  intro hm
  rcases List.mem_append.mp hm with h | h
  · exact (formUrlEncode_not_meta h).2.2 rfl
  · rcases List.mem_cons.mp h with h | h
    · cases h
    · exact (formUrlEncode_not_meta h).2.2 rfl

theorem eq_not_in_formUrlEncode (s : String) :
    '=' ∉ (formUrlEncode s).data := by
  intro hm
  exact (formUrlEncode_not_meta hm).2.1 rfl

theorem encodePair_inj {p q : String × String} (h : encodePair p = encodePair q) :
    p = q := by
  have hd : (encodePair p).data = (encodePair q).data := congrArg String.data h
  rw [encodePair_data, encodePair_data] at hd
  obtain ⟨h₁, h₂⟩ := append_sep_inj (eq_not_in_formUrlEncode p.1)
    (eq_not_in_formUrlEncode q.1) hd
  have e₁ : formUrlEncode p.1 = formUrlEncode q.1 := by
    cases hp : formUrlEncode p.1
    cases hq : formUrlEncode q.1
    rw [hp, hq] at h₁
    exact congrArg String.mk h₁
  have e₂ : formUrlEncode p.2 = formUrlEncode q.2 := by
    cases hp : formUrlEncode p.2
    cases hq : formUrlEncode q.2
    rw [hp, hq] at h₂
    exact congrArg String.mk h₂
  have := formUrlEncode_inj e₁
  have := formUrlEncode_inj e₂
  cases p
  cases q
  simp_all

theorem encodePair_data_ne_nil (p : String × String) :
    (encodePair p).data ≠ [] := by
  rw [encodePair_data]
  intro h
  rcases List.append_eq_nil.mp h with ⟨_, h₂⟩
  cases h₂

theorem joinSep_cons₂ (sep : String) (x y : String) (xs : List String) :
    joinSep sep (x :: y :: xs) = x ++ sep ++ joinSep sep (y :: xs) := rfl

theorem joinPairs_inj : ∀ {l₁ l₂ : List (String × String)},
    joinSep "&" (l₁.map encodePair) = joinSep "&" (l₂.map encodePair) → l₁ = l₂
  | [], [], _ => rfl
  | [], q :: t, h => by
      exfalso
      cases t with
      | nil =>
          exact encodePair_data_ne_nil q (congrArg String.data h.symm)
      | cons q' t' =>
          have hd := congrArg String.data h
          simp only [List.map_nil, List.map_cons, joinSep, String.data_append] at hd
          rcases List.append_eq_nil.mp hd.symm with ⟨h1, _⟩
          rcases List.append_eq_nil.mp h1 with ⟨h2, _⟩
          exact encodePair_data_ne_nil q h2
  | p :: t, [], h => by
      exfalso
      cases t with
      | nil =>
          exact encodePair_data_ne_nil p (congrArg String.data h)
      | cons p' t' =>
          have hd := congrArg String.data h
          simp only [List.map_nil, List.map_cons, joinSep, String.data_append] at hd
          rcases List.append_eq_nil.mp hd with ⟨h1, _⟩
          rcases List.append_eq_nil.mp h1 with ⟨h2, _⟩
          exact encodePair_data_ne_nil p h2
  | [p], [q], h => by
      have : p = q := encodePair_inj (by simpa [joinSep] using h)
      rw [this]
  | [p], q :: q' :: t₂, h => by
      exfalso
      have hd := congrArg String.data h
      simp only [List.map_cons, List.map_nil, joinSep, String.data_append,
        List.append_assoc] at hd
      have hmem : '&' ∈ (encodePair p).data := by
        rw [hd]
        exact List.mem_append_right _ (by simp [show ("&" : String).data = ['&'] from rfl])
      exact amp_not_in_encodePair p hmem
  | p :: p' :: t₁, [q], h => by
      exfalso
      have hd := congrArg String.data h
      simp only [List.map_cons, List.map_nil, joinSep, String.data_append,
        List.append_assoc] at hd
      have hmem : '&' ∈ (encodePair q).data := by
        rw [← hd]
        exact List.mem_append_right _ (by simp [show ("&" : String).data = ['&'] from rfl])
      exact amp_not_in_encodePair q hmem
  | p :: p' :: t₁, q :: q' :: t₂, h => by
      have hd := congrArg String.data h
      simp only [List.map_cons, joinSep_cons₂, String.data_append,
        List.append_assoc] at hd
      simp only [List.singleton_append] at hd
      obtain ⟨h₁, h₂⟩ := append_sep_inj (amp_not_in_encodePair p)
        (amp_not_in_encodePair q) hd
      have hp : p = q := encodePair_inj (by
        cases hpp : encodePair p
        cases hqq : encodePair q
        rw [hpp, hqq] at h₁
        exact congrArg String.mk h₁)
      have hrest : joinSep "&" ((p' :: t₁).map encodePair)
          = joinSep "&" ((q' :: t₂).map encodePair) := by
        have e₁ : (joinSep "&" ((p' :: t₁).map encodePair)).data
            = (joinSep "&" ((q' :: t₂).map encodePair)).data := by
          simpa [List.map_cons] using h₂
        cases hpp : joinSep "&" ((p' :: t₁).map encodePair)
        cases hqq : joinSep "&" ((q' :: t₂).map encodePair)
        rw [hpp, hqq] at e₁
        exact congrArg String.mk e₁
      have := joinPairs_inj hrest
      rw [hp, this]

theorem serializeQuery_inj : ∀ {l₁ l₂ : List (String × String)},
    serializeQuery l₁ = serializeQuery l₂ → l₁ = l₂
  | [], [], _ => rfl
  | [], q :: t, h => by
      exfalso
      have hd := congrArg String.data h
      simp only [serializeQuery, String.data_append] at hd
      cases hd
  | p :: t, [], h => by
      exfalso
      have hd := congrArg String.data h
      simp only [serializeQuery, String.data_append] at hd
      cases hd
  | p :: t₁, q :: t₂, h => by
      have hd := congrArg String.data h
      simp only [serializeQuery, String.data_append,
        show ("?" : String).data = ['?'] from rfl, List.cons_append,
        List.nil_append, List.cons.injEq, true_and] at hd
      apply @joinPairs_inj (p :: t₁) (q :: t₂)
      cases hpp : joinSep "&" ((p :: t₁).map encodePair)
      cases hqq : joinSep "&" ((q :: t₂).map encodePair)
      rw [hpp, hqq] at hd
      exact congrArg String.mk hd

theorem setParam_not_mem : ∀ (l : List (String × String)) (n v : String),
    (∀ p ∈ l, p.1 ≠ n) → setParam l n v = l ++ [(n, v)]
  | [], _, _, _ => rfl
  | p :: rest, n, v, h => by
      unfold setParam
      rw [if_neg (h p (by simp)),
        setParam_not_mem rest n v (fun q hq => h q (List.mem_cons_of_mem p hq))]
      rfl

theorem copyParams_go : ∀ (l acc : List (String × String)),
    (∀ p ∈ l, ∀ q ∈ acc, p.1 ≠ q.1) → (l.map Prod.fst).Nodup →
    l.foldl (fun a p => setParam a p.1 p.2) acc = acc ++ l
  | [], acc, _, _ => by simp
  | p :: t, acc, hdisj, hnd => by
      simp only [List.map_cons, List.nodup_cons] at hnd
      have hstep : setParam acc p.1 p.2 = acc ++ [p] := by
        rw [setParam_not_mem acc p.1 p.2
          (fun q hq => Ne.symm (hdisj p (by simp) q hq))]
      have hdisj' : ∀ x ∈ t, ∀ q ∈ acc ++ [p], x.1 ≠ q.1 := by
        intro x hx q hq
        rcases List.mem_append.mp hq with hq | hq
        · exact hdisj x (List.mem_cons_of_mem p hx) q hq
        · rcases List.mem_singleton.mp hq with rfl
          intro he
          exact hnd.1 (he ▸ List.mem_map_of_mem Prod.fst hx)
      rw [List.foldl_cons, hstep, copyParams_go t (acc ++ [p]) hdisj' hnd.2]
      simp

theorem copyParams_eq_self (l : List (String × String))
    (hnd : (l.map Prod.fst).Nodup) : copyParams l = l := by
  unfold copyParams
  rw [copyParams_go l [] (by simp) hnd]
  simp

/-- Splitting a concatenation at a boundary marked by a decidable property
is unambiguous. -/
theorem append_pred_inj {α : Type} {P : α → Prop} :
    ∀ {a₁ a₂ b₁ b₂ : List α},
    (∀ x ∈ a₁, P x) → (∀ x ∈ a₂, P x) →
    (∀ x ∈ b₁, ¬ P x) → (∀ x ∈ b₂, ¬ P x) →
    a₁ ++ b₁ = a₂ ++ b₂ → a₁ = a₂ ∧ b₁ = b₂
  | [], [], _, _, _, _, _, _, h => ⟨rfl, h⟩
  | [], x :: r, _, _, _, ha₂, hb₁, _, h => by
      exfalso
      simp only [List.nil_append] at h
      exact hb₁ x (h ▸ List.mem_cons_self x _) (ha₂ x (by simp))
  | x :: r, [], _, _, ha₁, _, _, hb₂, h => by
      exfalso
      simp only [List.nil_append] at h
      exact hb₂ x (h.symm ▸ List.mem_cons_self x _) (ha₁ x (by simp))
  | x₁ :: r₁, x₂ :: r₂, b₁, b₂, ha₁, ha₂, hb₁, hb₂, h => by
      simp only [List.cons_append, List.cons.injEq] at h
      obtain ⟨hx, ht⟩ := h
      obtain ⟨hr, hb⟩ := append_pred_inj
        (fun x hx => ha₁ x (List.mem_cons_of_mem _ hx))
        (fun x hx => ha₂ x (List.mem_cons_of_mem _ hx)) hb₁ hb₂ ht
      exact ⟨by rw [hx, hr], hb⟩

/-- Splitting `path ++ query` at the start of the query is unambiguous when
the path has no `?` and the query is empty or starts with its only `?`. -/
theorem split_at_marker {m : Char} : ∀ {a₁ a₂ t₁ t₂ : List Char},
    m ∉ a₁ → m ∉ a₂ →
    (t₁ = [] ∨ ∃ b, t₁ = m :: b) → (t₂ = [] ∨ ∃ b, t₂ = m :: b) →
    a₁ ++ t₁ = a₂ ++ t₂ → a₁ = a₂ ∧ t₁ = t₂
  | [], [], _, _, _, _, _, _, h => ⟨rfl, h⟩
  | [], x :: r, _, _, _, h₂, hs₁, _, h => by
      simp only [List.nil_append] at h
      rcases hs₁ with rfl | ⟨b, rfl⟩
      · exfalso
        cases h
      · exfalso
        simp only [List.cons_append, List.cons.injEq] at h
        exact h₂ (by rw [h.1]; exact List.mem_cons_self x r)
  | x :: r, [], _, _, h₁, _, _, hs₂, h => by
      simp only [List.nil_append] at h
      rcases hs₂ with rfl | ⟨b, rfl⟩
      · exfalso
        cases h
      · exfalso
        simp only [List.cons_append, List.cons.injEq] at h
        exact h₁ (by rw [← h.1]; exact List.mem_cons_self x r)
  | x₁ :: r₁, x₂ :: r₂, t₁, t₂, h₁, h₂, hs₁, hs₂, h => by
      simp only [List.cons_append, List.cons.injEq] at h
      obtain ⟨hx, ht⟩ := h
      obtain ⟨hr, hb⟩ := split_at_marker
        (fun hm => h₁ (List.mem_cons_of_mem x₁ hm))
        (fun hm => h₂ (List.mem_cons_of_mem x₂ hm)) hs₁ hs₂ ht
      exact ⟨by rw [hx, hr], hb⟩

theorem qmark_not_in_joinPairs : ∀ l : List (String × String),
    '?' ∉ (joinSep "&" (l.map encodePair)).data
  | [] => by simp [joinSep]
  | [p] => by
      simp only [List.map_cons, List.map_nil, joinSep]
      exact qmark_not_in_encodePair p
  | p :: p' :: t => by
      simp only [List.map_cons, joinSep_cons₂, String.data_append]
      intro hm
      rcases List.mem_append.mp hm with hm | hm
      · rcases List.mem_append.mp hm with hm | hm
        · exact qmark_not_in_encodePair p hm
        · simp at hm
      · exact qmark_not_in_joinPairs (p' :: t) (by simpa using hm)

theorem headerParts_eq (headers : List (String × String)) :
    headerParts headers
      = rangePart (truthyGet headers "range")
        ++ aePart (truthyGet headers "accept-encoding") := by
  unfold headerParts rangePart aePart
  rcases hr : truthyGet headers "range" with _ | v <;>
    rcases ha : truthyGet headers "accept-encoding" with _ | w <;>
      simp [List.filterMap_cons, hr, ha]

theorem string_append_left_cancel {s a b : String} (h : s ++ a = s ++ b) :
    a = b := by
  have hd := congrArg String.data h
  rw [String.data_append, String.data_append] at hd
  have := List.append_cancel_left hd
  cases a
  cases b
  exact congrArg String.mk this

theorem cacheKeyParams_decomp (u : UrlModel) (headers : List (String × String))
    (version : Option String)
    (hres : ∀ p ∈ u.searchParams, p.1 ≠ "_cache_headers" ∧ p.1 ≠ "_cache_version")
    (hnd : ((deleteExcluded u.searchParams).map Prod.fst).Nodup) :
    cacheKeyParams u headers version
      = sortByLe searchSortLe (deleteExcluded u.searchParams)
        ++ (hdrEntries headers ++ verEntries version) := by
  have hmem : ∀ p ∈ sortByLe searchSortLe (deleteExcluded u.searchParams),
      p ∈ u.searchParams := by
    intro p hp
    have hcl : p ∈ deleteExcluded u.searchParams :=
      (sortByLe_perm _ _).mem_iff.mp hp
    rw [deleteExcluded_eq_filter] at hcl
    exact List.mem_of_mem_filter hcl
  have hndn : ((sortByLe searchSortLe (deleteExcluded u.searchParams)).map
      Prod.fst).Nodup :=
    ((sortByLe_perm searchSortLe (deleteExcluded u.searchParams)).map
      Prod.fst).nodup_iff.mpr hnd
  have hnch : ∀ p ∈ sortByLe searchSortLe (deleteExcluded u.searchParams),
      p.1 ≠ "_cache_headers" := fun p hp => (hres p (hmem p hp)).1
  have hncv : ∀ p ∈ sortByLe searchSortLe (deleteExcluded u.searchParams),
      p.1 ≠ "_cache_version" := fun p hp => (hres p (hmem p hp)).2
  simp only [cacheKeyParams, hdrEntries, verEntries]
  rw [copyParams_eq_self _ hndn]
  rcases hh : headerParts headers with _ | ⟨part, parts⟩
  · rcases version with _ | v
    · simp
    · dsimp only
      by_cases hv : v = ""
      · simp [hv]
      · rw [if_neg hv, if_neg hv, setParam_not_mem _ _ _ hncv]
        simp
  · rcases version with _ | v
    · dsimp only
      rw [setParam_not_mem _ _ _ hnch]
      simp
    · dsimp only
      by_cases hv : v = ""
      · rw [if_pos hv, if_pos hv, setParam_not_mem _ _ _ hnch]
        simp
      · have hncv' : ∀ p ∈ sortByLe searchSortLe (deleteExcluded u.searchParams)
            ++ [("_cache_headers", joinSep "|" (part :: parts))],
            p.1 ≠ "_cache_version" := by
          intro p hp
          rcases List.mem_append.mp hp with hp | hp
          · exact hncv p hp
          · rcases List.mem_singleton.mp hp with rfl
            simp
        rw [if_neg hv, if_neg hv, setParam_not_mem _ _ _ hnch,
          setParam_not_mem _ _ _ hncv']
        simp

theorem range_head (v : String) :
    (("range:" ++ v) : String).data.head? = some 'r' := by
  rw [String.data_append]
  rfl

theorem ae_head (w : String) :
    (("accept-encoding:" ++ w) : String).data.head? = some 'a' := by
  rw [String.data_append]
  rfl

theorem pipe_not_in_range_lit : '|' ∉ ("range:" : String).data := by decide

theorem pipeJoin_inj (r₁ a₁ r₂ a₂ : Option String)
    (hr₁ : ∀ v, r₁ = some v → '|' ∉ v.data)
    (hr₂ : ∀ v, r₂ = some v → '|' ∉ v.data)
    (h : joinSep "|" (rangePart r₁ ++ aePart a₁)
      = joinSep "|" (rangePart r₂ ++ aePart a₂)) :
    (r₁ = none ∧ a₁ = none ∧ r₂ = none ∧ a₂ = none) ∨ (r₁ = r₂ ∧ a₁ = a₂) := by
  have doubleHead : ∀ v w : String,
      ((("range:" ++ v) ++ "|" ++ ("accept-encoding:" ++ w)
        : String)).data.head? = some 'r' := by
    intro v w
    simp only [String.data_append]
    rfl
  rcases r₁ with _ | v₁ <;> rcases a₁ with _ | w₁ <;>
    rcases r₂ with _ | v₂ <;> rcases a₂ with _ | w₂ <;>
    simp only [rangePart, aePart, List.nil_append, List.append_nil,
      List.cons_append, joinSep] at h
  -- (n,n) vs (n,n)
  · exact Or.inl ⟨rfl, rfl, rfl, rfl⟩
  -- (n,n) vs (n,s)
  · exfalso
    have hh := congrArg (fun s => s.data.head?) h
    simp only at hh
    rw [ae_head] at hh
    cases hh
  -- (n,n) vs (s,n)
  · exfalso
    have hh := congrArg (fun s => s.data.head?) h
    simp only at hh
    rw [range_head] at hh
    cases hh
  -- (n,n) vs (s,s)
  · exfalso
    have hh := congrArg (fun s => s.data.head?) h
    simp only at hh
    rw [doubleHead] at hh
    cases hh
  -- (n,s) vs (n,n)
  · exfalso
    have hh := congrArg (fun s => s.data.head?) h
    simp only at hh
    rw [ae_head] at hh
    cases hh
  -- (n,s) vs (n,s)
  · refine Or.inr ⟨rfl, ?_⟩
    rw [string_append_left_cancel h]
  -- (n,s) vs (s,n)
  · exfalso
    have hh := congrArg (fun s => s.data.head?) h
    simp only at hh
    rw [ae_head, range_head] at hh
    simp at hh
  -- (n,s) vs (s,s)
  · exfalso
    have hh := congrArg (fun s => s.data.head?) h
    simp only at hh
    rw [ae_head, doubleHead] at hh
    simp at hh
  -- (s,n) vs (n,n)
  · exfalso
    have hh := congrArg (fun s => s.data.head?) h
    simp only at hh
    rw [range_head] at hh
    cases hh
  -- (s,n) vs (n,s)
  · exfalso
    have hh := congrArg (fun s => s.data.head?) h
    simp only at hh
    rw [ae_head, range_head] at hh
    simp at hh
  -- (s,n) vs (s,n)
  · refine Or.inr ⟨?_, rfl⟩
    rw [string_append_left_cancel h]
  -- (s,n) vs (s,s)
  · exfalso
    have hd := congrArg String.data h
    simp only [String.data_append, List.append_assoc] at hd
    have hd' := List.append_cancel_left hd
    have hpipe : '|' ∈ v₁.data := by
      rw [hd']
      refine List.mem_append_right _ ?_
      simp
    exact hr₁ v₁ rfl hpipe
  -- (s,s) vs (n,n)
  · exfalso
    have hh := congrArg (fun s => s.data.head?) h
    simp only at hh
    rw [doubleHead] at hh
    cases hh
  -- (s,s) vs (n,s)
  · exfalso
    have hh := congrArg (fun s => s.data.head?) h
    simp only at hh
    rw [ae_head, doubleHead] at hh
    simp at hh
  -- (s,s) vs (s,n)
  · exfalso
    have hd := congrArg String.data h
    simp only [String.data_append, List.append_assoc] at hd
    have hd' := List.append_cancel_left hd
    have hpipe : '|' ∈ v₂.data := by
      rw [← hd']
      refine List.mem_append_right _ ?_
      simp
    exact hr₂ v₂ rfl hpipe
  -- (s,s) vs (s,s)
  · have hd := congrArg String.data h
    simp only [String.data_append, List.append_assoc] at hd
    have hd' := List.append_cancel_left hd
    simp only [List.singleton_append] at hd'
    obtain ⟨hv, hw⟩ := append_sep_inj (hr₁ v₁ rfl) (hr₂ v₂ rfl) hd'
    have hv' : v₁ = v₂ := by
      cases v₁
      cases v₂
      exact congrArg String.mk hv
    have hw' : w₁ = w₂ := by
      have := List.append_cancel_left hw
      cases w₁
      cases w₂
      exact congrArg String.mk this
    rw [hv', hw']
    exact Or.inr ⟨rfl, rfl⟩

theorem hdrEntries_cases (g : List (String × String)) :
    (hdrEntries g = [] ∧ headerParts g = []) ∨
    ∃ j, hdrEntries g = [("_cache_headers", j)] := by
  unfold hdrEntries
  rcases headerParts g with _ | ⟨x, t⟩
  · exact Or.inl ⟨rfl, rfl⟩
  · exact Or.inr ⟨_, rfl⟩

theorem verEntries_cases (v : Option String) :
    verEntries v = [] ∨ ∃ w, verEntries v = [("_cache_version", w)] := by
  unfold verEntries
  rcases v with _ | v
  · exact Or.inl rfl
  · dsimp only
    by_cases hv : v = ""
    · rw [if_pos hv]
      exact Or.inl rfl
    · rw [if_neg hv]
      exact Or.inr ⟨_, rfl⟩

theorem rangePart_eq_nil {r : Option String} (h : rangePart r = []) :
    r = none := by
  cases r
  · rfl
  · simp [rangePart] at h

theorem aePart_eq_nil {a : Option String} (h : aePart a = []) : a = none := by
  cases a
  · rfl
  · simp [aePart] at h

theorem hdrEntries_inj {g₁ g₂ : List (String × String)}
    (hp₁ : ∀ v, truthyGet g₁ "range" = some v → '|' ∉ v.data)
    (hp₂ : ∀ v, truthyGet g₂ "range" = some v → '|' ∉ v.data)
    (h : hdrEntries g₁ = hdrEntries g₂) :
    truthyGet g₁ "range" = truthyGet g₂ "range" ∧
    truthyGet g₁ "accept-encoding" = truthyGet g₂ "accept-encoding" := by
  unfold hdrEntries at h
  rcases e₁ : headerParts g₁ with _ | ⟨x₁, t₁⟩ <;>
    rcases e₂ : headerParts g₂ with _ | ⟨x₂, t₂⟩ <;> rw [e₁, e₂] at h
  · rw [headerParts_eq] at e₁ e₂
    rcases List.append_eq_nil.mp e₁ with ⟨er₁, ea₁⟩
    rcases List.append_eq_nil.mp e₂ with ⟨er₂, ea₂⟩
    rw [rangePart_eq_nil er₁, rangePart_eq_nil er₂,
      aePart_eq_nil ea₁, aePart_eq_nil ea₂]
    exact ⟨rfl, rfl⟩
  · cases h
  · cases h
  · simp only [List.cons.injEq, Prod.mk.injEq, true_and, and_true] at h
    have hj : joinSep "|"
        (rangePart (truthyGet g₁ "range") ++ aePart (truthyGet g₁ "accept-encoding"))
        = joinSep "|"
        (rangePart (truthyGet g₂ "range") ++ aePart (truthyGet g₂ "accept-encoding")) := by
      rw [← headerParts_eq, ← headerParts_eq, e₁, e₂]
      exact h
    rcases pipeJoin_inj _ _ _ _ hp₁ hp₂ hj with ⟨er₁, ea₁, er₂, ea₂⟩ | ⟨er, ea⟩
    · rw [er₁, ea₁, er₂, ea₂]
      exact ⟨rfl, rfl⟩
    · exact ⟨er, ea⟩

theorem serializeQuery_shape (l : List (String × String)) :
    (serializeQuery l).data = [] ∨ ∃ b, (serializeQuery l).data = '?' :: b := by
  cases l with
  | nil => exact Or.inl rfl
  | cons p t =>
      right
      refine ⟨(joinSep "&" ((p :: t).map encodePair)).data, ?_⟩
      show (("?" : String) ++ joinSep "&" ((p :: t).map encodePair)).data = _
      rw [String.data_append]
      rfl

/-- C1 (amended): provided neither request's query uses the reserved
parameter names `_cache_headers`/`_cache_version`, the surviving
(non-excluded) parameters carry no repeated name, and the `Range` header
values contain no `|`, equal cache keys force equal resources: same
pathname, the same surviving query parameters up to order, and the same
truthy `Range` and `Accept-Encoding` header values. -/
theorem generateCacheKey_inj
    (u₁ u₂ : UrlModel) (g₁ g₂ : List (String × String)) (version : Option String)
    (hq₁ : '?' ∉ u₁.pathname.data) (hq₂ : '?' ∉ u₂.pathname.data)
    (hres₁ : ∀ p ∈ u₁.searchParams,
      p.1 ≠ "_cache_headers" ∧ p.1 ≠ "_cache_version")
    (hres₂ : ∀ p ∈ u₂.searchParams,
      p.1 ≠ "_cache_headers" ∧ p.1 ≠ "_cache_version")
    (hnd₁ : ((deleteExcluded u₁.searchParams).map Prod.fst).Nodup)
    (hnd₂ : ((deleteExcluded u₂.searchParams).map Prod.fst).Nodup)
    (hp₁ : ∀ v, truthyGet g₁ "range" = some v → '|' ∉ v.data)
    (hp₂ : ∀ v, truthyGet g₂ "range" = some v → '|' ∉ v.data)
    (hkey : generateCacheKey u₁ g₁ version = generateCacheKey u₂ g₂ version) :
    u₁.pathname = u₂.pathname ∧
    (deleteExcluded u₁.searchParams).Perm (deleteExcluded u₂.searchParams) ∧
    truthyGet g₁ "range" = truthyGet g₂ "range" ∧
    truthyGet g₁ "accept-encoding" = truthyGet g₂ "accept-encoding" := by
  unfold generateCacheKey at hkey
  have hd := congrArg String.data hkey
  rw [String.data_append, String.data_append, String.data_append,
    String.data_append, List.append_assoc, List.append_assoc] at hd
  have hd' := List.append_cancel_left hd
  obtain ⟨hpath, hquery⟩ := split_at_marker hq₁ hq₂
    (serializeQuery_shape _) (serializeQuery_shape _) hd'
  have hpath' : u₁.pathname = u₂.pathname := congrArg String.mk hpath
  have hquery' : serializeQuery (cacheKeyParams u₁ g₁ version)
      = serializeQuery (cacheKeyParams u₂ g₂ version) :=
    congrArg String.mk hquery
  have hparams := serializeQuery_inj hquery'
  rw [cacheKeyParams_decomp u₁ g₁ version hres₁ hnd₁,
    cacheKeyParams_decomp u₂ g₂ version hres₂ hnd₂] at hparams
  have hsortmem : ∀ (u : UrlModel),
      (∀ p ∈ u.searchParams, p.1 ≠ "_cache_headers" ∧ p.1 ≠ "_cache_version") →
      ∀ p ∈ sortByLe searchSortLe (deleteExcluded u.searchParams),
      p.1 ≠ "_cache_headers" ∧ p.1 ≠ "_cache_version" := by
    intro u hres p hp
    have hcl : p ∈ deleteExcluded u.searchParams :=
      (sortByLe_perm _ _).mem_iff.mp hp
    rw [deleteExcluded_eq_filter] at hcl
    exact hres p (List.mem_of_mem_filter hcl)
  have htailres : ∀ (g : List (String × String)) (v : Option String),
      ∀ p ∈ hdrEntries g ++ verEntries v,
      ¬(p.1 ≠ "_cache_headers" ∧ p.1 ≠ "_cache_version") := by
    intro g v p hp
    rcases List.mem_append.mp hp with hp | hp
    · rcases hdrEntries_cases g with ⟨he, _⟩ | ⟨j, he⟩ <;> rw [he] at hp
      · cases hp
      · rcases List.mem_singleton.mp hp with rfl
        simp
    · rcases verEntries_cases v with he | ⟨w, he⟩ <;> rw [he] at hp
      · cases hp
      · rcases List.mem_singleton.mp hp with rfl
        simp
  obtain ⟨hsorted, htails⟩ := append_pred_inj
    (hsortmem u₁ hres₁) (hsortmem u₂ hres₂)
    (htailres g₁ version) (htailres g₂ version) hparams
  have hperm : (deleteExcluded u₁.searchParams).Perm
      (deleteExcluded u₂.searchParams) := by
    have p₁ := sortByLe_perm searchSortLe (deleteExcluded u₁.searchParams)
    have p₂ := sortByLe_perm searchSortLe (deleteExcluded u₂.searchParams)
    exact p₁.symm.trans (hsorted ▸ p₂)
  have hhdr : hdrEntries g₁ = hdrEntries g₂ := by
    have hch : ∀ g : List (String × String), ∀ p ∈ hdrEntries g,
        p.1 = "_cache_headers" := by
      intro g p hp
      rcases hdrEntries_cases g with ⟨he, _⟩ | ⟨j, he⟩ <;> rw [he] at hp
      · cases hp
      · rcases List.mem_singleton.mp hp with rfl
        rfl
    have hcv : ∀ v : Option String, ∀ p ∈ verEntries v,
        ¬ p.1 = "_cache_headers" := by
      intro v p hp
      rcases verEntries_cases v with he | ⟨w, he⟩ <;> rw [he] at hp
      · cases hp
      · rcases List.mem_singleton.mp hp with rfl
        simp
    exact (append_pred_inj (hch g₁) (hch g₂) (hcv version) (hcv version)
      htails).1
  obtain ⟨hr, ha⟩ := hdrEntries_inj hp₁ hp₂ hhdr
  exact ⟨hpath', hperm, hr, ha⟩

/-- C1, counterexample: the cache key IS forgeable as stated.  Three
concrete collisions: (1) a crafted `_cache_headers` query parameter
collides with a genuine `Range` request for the same path; (2) the
duplicate-collapsing `set` copy makes `?a=1&a=2` collide with `?a=2`; (3) a
`Range` value containing `|accept-encoding:` collides with a distinct
`Range`/`Accept-Encoding` combination.  In each pair the two requests
differ in a non-excluded query parameter or in a relevant header value, yet
`generateCacheKey` gives identical keys. -/
theorem generateCacheKey_forgeable :
    (generateCacheKey ⟨"/file", []⟩ [("Range", "bytes=0-1")] none
        = generateCacheKey ⟨"/file", [("_cache_headers", "range:bytes=0-1")]⟩ [] none
      ∧ (⟨"/file", []⟩ : UrlModel).searchParams
          ≠ (⟨"/file", [("_cache_headers", "range:bytes=0-1")]⟩ : UrlModel).searchParams
      ∧ truthyGet [("Range", "bytes=0-1")] "range" ≠ truthyGet [] "range")
    ∧ (generateCacheKey ⟨"/file", [("a", "1"), ("a", "2")]⟩ [] none
        = generateCacheKey ⟨"/file", [("a", "2")]⟩ [] none
      ∧ ¬ (([("a", "1"), ("a", "2")] : List (String × String)).Perm [("a", "2")]))
    ∧ (generateCacheKey ⟨"/file", []⟩ [("range", "x|accept-encoding:y")] none
        = generateCacheKey ⟨"/file", []⟩
            [("range", "x"), ("accept-encoding", "y")] none
      ∧ truthyGet [("range", "x|accept-encoding:y")] "accept-encoding"
          ≠ truthyGet [("range", "x"), ("accept-encoding", "y")] "accept-encoding") := by
  refine ⟨⟨rfl, by decide, by decide⟩, ⟨rfl, by decide⟩, ⟨rfl, by decide⟩⟩

/-- C1 witness: the amended injectivity theorem applied to a concrete pair
of equal-key requests. -/
theorem generateCacheKey_inj_witness :
    (⟨"/file", [("b", "2"), ("a", "1")]⟩ : UrlModel).pathname
        = (⟨"/file", [("a", "1"), ("b", "2")]⟩ : UrlModel).pathname
    ∧ (deleteExcluded [("b", "2"), ("a", "1")]).Perm
        (deleteExcluded [("a", "1"), ("b", "2")])
    ∧ truthyGet [("range", "bytes=0-5")] "range"
        = truthyGet [("Range", "bytes=0-5")] "range"
    ∧ truthyGet [("range", "bytes=0-5")] "accept-encoding"
        = truthyGet [("Range", "bytes=0-5")] "accept-encoding" :=
  generateCacheKey_inj
    ⟨"/file", [("b", "2"), ("a", "1")]⟩ ⟨"/file", [("a", "1"), ("b", "2")]⟩
    [("range", "bytes=0-5")] [("Range", "bytes=0-5")] (some "v1")
    (by decide) (by decide) (by decide) (by decide) (by decide) (by decide)
    (by intro v hv; injection hv with h; rw [← h]; decide)
    (by intro v hv; injection hv with h; rw [← h]; decide)
    rfl

/-- C2 witness: two requests differing only in `sig`/`exp` values and a
cache-busting `bust` parameter produce the identical cache key. -/
theorem generateCacheKey_ignores_excluded_witness :
    generateCacheKey ⟨"/img.png", [("sig", "aabb"), ("exp", "111"), ("x", "1")]⟩
        [("range", "bytes=0-5")] (some "v1")
      = generateCacheKey ⟨"/img.png", [("x", "1"), ("bust", "9"), ("sig", "ccdd"),
          ("exp", "222")]⟩ [("range", "bytes=0-5")] (some "v1") :=
  generateCacheKey_ignores_excluded
    ⟨"/img.png", [("sig", "aabb"), ("exp", "111"), ("x", "1")]⟩
    ⟨"/img.png", [("x", "1"), ("bust", "9"), ("sig", "ccdd"), ("exp", "222")]⟩
    [("range", "bytes=0-5")] (some "v1") rfl (by decide)

/-- C5, counterexample: the Canonicalizer does NOT sort by byte/code-point
order.  With parameters `B=1` and `a=2`, `"B"` precedes `"a"` in code-unit
order (0x42 < 0x61), but the comparator `a.localeCompare(b)` puts `a=2`
first, so the output is `a=2&B=1`, not the code-point-sorted `B=1&a=2`. -/
theorem createCanonicalQueryString_not_codepoint_sorted :
    createCanonicalQueryString [("B", "1"), ("a", "2")] none = "a=2&B=1"
    ∧ createCanonicalQueryString [("B", "1"), ("a", "2")] none ≠ "B=1&a=2"
    ∧ codeUnitCmp "B" "a" = .lt := by
  refine ⟨rfl, by decide, by decide⟩

/-- C5 (amended): for a truthy excluded name, `createCanonicalQueryString`
removes exactly that parameter, sorts the rest by the `localeCompare`
collation (stably; not by code points), percent-encodes names and values
per RFC 3986 (space and `! ' ( ) *` become escapes), joins `name=value`
pairs with `&`, and yields the empty string when nothing remains; the data
to sign appends `?` and the canonical string to the path, omitting the `?`
when the canonical string is empty. -/
theorem createCanonicalQueryString_spec (ps : List (String × String))
    (e : String) (he : e ≠ "") :
    (createCanonicalQueryString ps (some e)
      = String.intercalate "&"
          ((sortByLe localeLe (ps.filter fun p => p.1 != e)).map
            fun p => specRfc3986Encode p.1 ++ "=" ++ specRfc3986Encode p.2))
    ∧ (canonicalParams ps (some e)).Perm (ps.filter fun p => p.1 != e)
    ∧ (canonicalParams ps (some e)).Pairwise (localeLe · · = true)
    ∧ (ps.filter (fun p => p.1 != e) = []
        → createCanonicalQueryString ps (some e) = "")
    ∧ (∀ path q : String,
        dataToSign path q = if q = "" then path else path ++ "?" ++ q) := by
  have hfilter : (fun p : String × String =>
      match some e with
      | none => true
      | some ex => if ex = "" then true else p.1 != ex) = fun p => p.1 != e := by
    funext p
    simp [he]
  refine ⟨?_, ?_, canonicalParams_sorted ps (some e), ?_, ?_⟩
  · unfold createCanonicalQueryString canonicalParams
    rw [hfilter]
    congr 1
    apply List.map_congr_left
    intro p _
    rw [rfc3986Encode_eq_spec, rfc3986Encode_eq_spec]
  · have := canonicalParams_perm ps (some e)
    rwa [hfilter] at this
  · intro hemp
    unfold createCanonicalQueryString canonicalParams
    rw [hfilter, hemp]
    rfl
  · intro path q
    unfold dataToSign
    by_cases hq : q = ""
    · rw [if_pos hq, if_neg (by rw [hq]; simp)]
    · rw [if_neg hq, if_pos ?_]
      have : q.data ≠ [] := fun hd => hq (by
        cases q
        cases hd
        rfl)
      have hlen : q.length ≠ 0 := by
        intro h0
        exact this (List.length_eq_zero.mp h0)
      omega

/-- C5 witness: the amended specification instantiated at a concrete
parameter list with exclusion `sig`. -/
theorem createCanonicalQueryString_spec_witness :
    (createCanonicalQueryString [("b", "x y"), ("sig", "ff"), ("a", "1")]
        (some "sig")
      = String.intercalate "&"
          ((sortByLe localeLe
            (([("b", "x y"), ("sig", "ff"), ("a", "1")] : List (String × String)).filter
              fun p => p.1 != "sig")).map
            fun p => specRfc3986Encode p.1 ++ "=" ++ specRfc3986Encode p.2))
    ∧ (canonicalParams [("b", "x y"), ("sig", "ff"), ("a", "1")] (some "sig")).Perm
        (([("b", "x y"), ("sig", "ff"), ("a", "1")] : List (String × String)).filter
          fun p => p.1 != "sig")
    ∧ (canonicalParams [("b", "x y"), ("sig", "ff"), ("a", "1")]
        (some "sig")).Pairwise (localeLe · · = true)
    ∧ (([("b", "x y"), ("sig", "ff"), ("a", "1")] : List (String × String)).filter
          (fun p => p.1 != "sig") = []
        → createCanonicalQueryString [("b", "x y"), ("sig", "ff"), ("a", "1")]
            (some "sig") = "")
    ∧ (∀ path q : String,
        dataToSign path q = if q = "" then path else path ++ "?" ++ q) :=
  createCanonicalQueryString_spec [("b", "x y"), ("sig", "ff"), ("a", "1")]
    "sig" (by decide)

/-- C6, counterexample: with a repeated parameter name the Canonicalizer is
NOT invariant under permutation of the input: the sort is stable, so equal
names keep their input order. -/
theorem canonical_not_perm_invariant_with_dups :
    ([("a", "1"), ("a", "2")] : List (String × String)).Perm [("a", "2"), ("a", "1")]
    ∧ createCanonicalQueryString [("a", "1"), ("a", "2")] (some "sig") = "a=1&a=2"
    ∧ createCanonicalQueryString [("a", "2"), ("a", "1")] (some "sig") = "a=2&a=1"
    ∧ createCanonicalQueryString [("a", "1"), ("a", "2")] (some "sig")
        ≠ createCanonicalQueryString [("a", "2"), ("a", "1")] (some "sig") := by
  refine ⟨by decide, rfl, rfl, by decide⟩

/-- C6 (amended): for parameter lists whose surviving names are pairwise
distinct, the Canonicalizer is invariant under permutation of the input,
and its parameter list is exactly the input minus the occurrences of the
excluded name (up to the sorted order). -/
theorem canonical_perm_invariant (ps₁ ps₂ : List (String × String))
    (e : String) (he : e ≠ "") (hperm : ps₁.Perm ps₂)
    (hnd : ((ps₁.filter fun p => p.1 != e).map Prod.fst).Nodup) :
    createCanonicalQueryString ps₁ (some e)
      = createCanonicalQueryString ps₂ (some e)
    ∧ (canonicalParams ps₁ (some e)).Perm (ps₁.filter fun p => p.1 != e) := by
  have hfilter : (fun p : String × String =>
      match some e with
      | none => true
      | some ex => if ex = "" then true else p.1 != ex) = fun p => p.1 != e := by
    funext p
    simp [he]
  constructor
  · unfold createCanonicalQueryString canonicalParams
    rw [hfilter]
    congr 2
    exact sortByLe_localeLe_perm_eq (hperm.filter _) hnd
  · have := canonicalParams_perm ps₁ (some e)
    rwa [hfilter] at this

/-- C6 witness: permutation invariance at a concrete pair of permuted
parameter lists. -/
theorem canonical_perm_invariant_witness :
    createCanonicalQueryString [("b", "2"), ("a", "1"), ("sig", "ff")] (some "sig")
      = createCanonicalQueryString [("sig", "ff"), ("a", "1"), ("b", "2")] (some "sig")
    ∧ (canonicalParams [("b", "2"), ("a", "1"), ("sig", "ff")] (some "sig")).Perm
        (([("b", "2"), ("a", "1"), ("sig", "ff")] : List (String × String)).filter
          fun p => p.1 != "sig") :=
  canonical_perm_invariant [("b", "2"), ("a", "1"), ("sig", "ff")]
    [("sig", "ff"), ("a", "1"), ("b", "2")] "sig" (by decide) (by decide)
    (by decide)

/-- C3: evaluation of the embedded `verifySignature` at a signature of odd
length (`"abc"`) and one with non-hex characters (`"zz"`).  Contrary to the
claim, the malformed-signature branch is not taken: `/.{1,2}/g` matches any
nonempty (non-newline) string, `parseInt` partially parses (`"zz"` → NaN →
byte 0), and verification proceeds to the HMAC check, failing with the
bad-signature error. -/
theorem verify_malformed_branch_not_taken :
    verifySignatureModel ⟨"/file", [("sig", "abc"), ("exp", "99999999999")]⟩ 0
        (fun _ _ => false) = .badSignature
    ∧ verifySignatureModel ⟨"/file", [("sig", "zz"), ("exp", "99999999999")]⟩ 0
        (fun _ _ => false) = .badSignature
    ∧ decodeSigBytes "abc" = [171, 12]
    ∧ decodeSigBytes "zz" = [0] :=
  ⟨by decide, by decide, by decide, by decide⟩

/-- C4: when the `exp` parameter is present, nonempty and not a number
(`Number(exp)` is NaN), the expiry comparison `now > NaN * 1000` is false
for every current time, so verification never fails with the expired
error; it proceeds to the HMAC check, and a URL whose signature matches the
canonical data verifies at any time. -/
theorem verify_nonnumeric_exp_never_expires
    (ps : List (String × String)) (path : String) (s e : String)
    (hsig : getParam ps "sig" = some s) (hs : s ≠ "")
    (hexp : getParam ps "exp" = some e) (he : e ≠ "")
    (hnan : jsToNumber e = .nan) :
    (∀ (now : Int) (hm : List Nat → String → Bool),
      verifySignatureModel ⟨path, ps⟩ now hm ≠ .expired)
    ∧ (∀ (now : Int) (hm : List Nat → String → Bool),
      hexChunks s ≠ none →
      hm (decodeSigBytes s)
        (dataToSign path (createCanonicalQueryString ps (some "sig"))) = true →
      verifySignatureModel ⟨path, ps⟩ now hm = .ok) := by
  constructor
  · intro now hm
    unfold verifySignatureModel
    rw [hsig, hexp]
    dsimp only
    rw [if_neg (by simp [hs, he]), hnan]
    rw [show jsGt now (jsMul1000 .nan) = false from rfl]
    rw [if_neg (by simp)]
    cases hexChunks s with
    | none => simp
    | some cs =>
        dsimp only
        split <;> simp
  · intro now hm hch hhm
    unfold verifySignatureModel
    rw [hsig, hexp]
    dsimp only
    rw [if_neg (by simp [hs, he]), hnan]
    rw [show jsGt now (jsMul1000 .nan) = false from rfl]
    rw [if_neg (by simp)]
    rcases hcs : hexChunks s with _ | cs
    · exact absurd hcs hch
    · dsimp only
      unfold decodeSigBytes at hhm
      rw [hcs] at hhm
      rw [if_pos hhm]

/-- C4 witness: a URL signed over the non-numeric expiry value `never`
verifies far in the future and is never reported expired. -/
theorem verify_nonnumeric_exp_never_expires_witness :
    verifySignatureModel ⟨"/f", [("sig", "ab"), ("exp", "never")]⟩ 99999999999999
        (fun _ _ => true) = .ok
    ∧ verifySignatureModel ⟨"/f", [("sig", "ab"), ("exp", "never")]⟩ 99999999999999
        (fun _ _ => false) ≠ .expired :=
  ⟨(verify_nonnumeric_exp_never_expires [("sig", "ab"), ("exp", "never")] "/f"
      "ab" "never" rfl (by decide) rfl (by decide) (by decide)).2
      99999999999999 (fun _ _ => true) (by decide) rfl,
   (verify_nonnumeric_exp_never_expires [("sig", "ab"), ("exp", "never")] "/f"
      "ab" "never" rfl (by decide) rfl (by decide) (by decide)).1
      99999999999999 (fun _ _ => false)⟩

/-- C7: whenever `minTtlSeconds ≤ maxTtlSeconds`, the resolved TTL lies in
`[minTtlSeconds, maxTtlSeconds]` regardless of the response headers, the
override flag, the clock, or the date-parsing semantics. -/
theorem calculateTtl_bounded (response : JsResponse) (config : CacheConfig)
    (now : Int) (parseDate : String → Option Int)
    (h : config.minTtlSeconds ≤ config.maxTtlSeconds) :
    config.minTtlSeconds ≤ calculateTtl response config now parseDate
    ∧ calculateTtl response config now parseDate ≤ config.maxTtlSeconds := by
  have hclamp : ∀ x : Int,
      config.minTtlSeconds ≤ jsClamp config.minTtlSeconds config.maxTtlSeconds x
      ∧ jsClamp config.minTtlSeconds config.maxTtlSeconds x
          ≤ config.maxTtlSeconds := by
    intro x
    unfold jsClamp
    constructor
    · exact le_max_left _ _
    · rw [max_le_iff]
      exact ⟨h, min_le_left _ _⟩
  unfold calculateTtl
  split
  · exact hclamp _
  · rcases headersGet response.headers "cache-control" with _ | cc
    · dsimp only
      rcases headersGet response.headers "expires" with _ | ev
      · exact hclamp _
      · dsimp only
        by_cases hev : ev = ""
        · rw [if_pos hev]
          exact hclamp _
        · rw [if_neg hev]
          rcases parseDate ev with _ | expiry
          · exact hclamp _
          · dsimp only
            by_cases hfut : now < expiry
            · rw [if_pos hfut]
              exact hclamp _
            · rw [if_neg hfut]
              exact hclamp _
    · dsimp only
      by_cases hcc : cc = ""
      · rw [if_pos hcc]
        dsimp only
        rcases headersGet response.headers "expires" with _ | ev
        · exact hclamp _
        · dsimp only
          by_cases hev : ev = ""
          · rw [if_pos hev]
            exact hclamp _
          · rw [if_neg hev]
            rcases parseDate ev with _ | expiry
            · exact hclamp _
            · dsimp only
              by_cases hfut : now < expiry
              · rw [if_pos hfut]
                exact hclamp _
              · rw [if_neg hfut]
                exact hclamp _
      · rw [if_neg hcc]
        rcases matchMaxAge cc.data with _ | n
        · dsimp only
          rcases headersGet response.headers "expires" with _ | ev
          · exact hclamp _
          · dsimp only
            by_cases hev : ev = ""
            · rw [if_pos hev]
              exact hclamp _
            · rw [if_neg hev]
              rcases parseDate ev with _ | expiry
              · exact hclamp _
              · dsimp only
                by_cases hfut : now < expiry
                · rw [if_pos hfut]
                  exact hclamp _
                · rw [if_neg hfut]
                  exact hclamp _
        · exact hclamp _

/-- C7 witness: a permissive origin `max-age` is clamped into the
configured `[60, 86400]` window. -/
theorem calculateTtl_bounded_witness :
    (60 : Int) ≤ calculateTtl ⟨200, [("cache-control", "max-age=99999999")]⟩
        ⟨true, 3600, false, 60, 86400, false⟩ 0 (fun _ => none)
    ∧ calculateTtl ⟨200, [("cache-control", "max-age=99999999")]⟩
        ⟨true, 3600, false, 60, 86400, false⟩ 0 (fun _ => none) ≤ 86400 :=
  calculateTtl_bounded ⟨200, [("cache-control", "max-age=99999999")]⟩
    ⟨true, 3600, false, 60, 86400, false⟩ 0 (fun _ => none) (by decide)

/-- C8, counterexample: a 404 response to a GET that carried a `Range`
header and lacks `content-range` is NOT returned as-is — both fetchers
classify it as a retryable `Missing content-range` failure. -/
theorem fetch_4xx_range_retried :
    performFetchAttempt HttpMethod.GET [("Range", "bytes=0-1")] ⟨404, []⟩
      = .error "Missing content-range"
    ∧ performFetchAttempt HttpMethod.GET [("Range", "bytes=0-1")] ⟨404, []⟩
      ≠ .ok ⟨404, []⟩
    ∧ performS3FetchAttempt HttpMethod.GET [("Range", "bytes=0-1")] ⟨404, []⟩
      = .error "Missing content-range" :=
  ⟨rfl, fun h => Except.noConfusion h, rfl⟩

/-- C8 (amended): status ≥ 500 is always a retryable failure; a 4xx is
returned immediately as-is unless the request was a ranged GET and the
response lacks `content-range`, in which case it is a retryable failure;
the aws-client and cache fetch attempts classify identically; and the
retry loop returns a first-attempt success immediately. -/
theorem fetchAttempt_classification (method : HttpMethod)
    (reqHeaders : List (String × String)) (res : JsResponse) :
    (500 ≤ res.status →
      performFetchAttempt method reqHeaders res = .error "Missing content-range"
      ∨ performFetchAttempt method reqHeaders res
          = .error ("Upstream responded with server error: "
              ++ toString res.status))
    ∧ (400 ≤ res.status → res.status < 500 →
      ¬((method = HttpMethod.GET ∧ headersHas reqHeaders "Range" = true)
        ∧ headersHas res.headers "content-range" = false) →
      performFetchAttempt method reqHeaders res = .ok res)
    ∧ (((method = HttpMethod.GET ∧ headersHas reqHeaders "Range" = true)
        ∧ headersHas res.headers "content-range" = false) →
      performFetchAttempt method reqHeaders res = .error "Missing content-range")
    ∧ performS3FetchAttempt method reqHeaders res
        = performFetchAttempt method reqHeaders res
    ∧ (∀ (results : Nat → Option JsResponse) (attempts : Nat),
        results 0 = some res →
        performFetchAttempt method reqHeaders res = .ok res →
        s3Fetch (attempts + 1) results method reqHeaders = .ok res) := by
  refine ⟨?_, ?_, ?_, ?_, ?_⟩
  · intro h5
    unfold performFetchAttempt
    split_ifs with h1 h2
    · exact Or.inl rfl
    · exact Or.inr rfl
    · exfalso
      apply h2
      refine ⟨?_, h5⟩
      simp only [responseOk, decide_eq_false_iff_not]
      omega
  · intro h4a h4b hrange
    unfold performFetchAttempt
    rw [if_neg hrange, if_neg ?_]
    intro ⟨_, habs⟩
    omega
  · intro hrange
    unfold performFetchAttempt
    rw [if_pos hrange]
  · unfold performS3FetchAttempt validateRangeResponse handleServerError
      performFetchAttempt
    split_ifs <;> rfl
  · intro results attempts h0 hok
    unfold s3Fetch s3FetchGo
    rw [h0]
    dsimp only
    rw [hok]

/-- C8 witness: the classification at concrete responses — a 503 is
retryable, a plain 404 is returned as-is, a ranged-GET 404 without
`content-range` is retryable, both fetchers agree, and a first-attempt 200
is returned with no retry. -/
theorem fetchAttempt_classification_witness :
    (performFetchAttempt HttpMethod.GET [] ⟨503, []⟩
        = .error "Missing content-range"
      ∨ performFetchAttempt HttpMethod.GET [] ⟨503, []⟩
        = .error ("Upstream responded with server error: "
            ++ toString (503 : Nat)))
    ∧ performFetchAttempt HttpMethod.GET [] ⟨404, []⟩ = .ok ⟨404, []⟩
    ∧ performFetchAttempt HttpMethod.GET [("Range", "bytes=0-1")] ⟨404, []⟩
        = .error "Missing content-range"
    ∧ performS3FetchAttempt HttpMethod.GET [] ⟨404, []⟩
        = performFetchAttempt HttpMethod.GET [] ⟨404, []⟩
    ∧ s3Fetch 3 (fun _ => some ⟨200, []⟩) HttpMethod.GET [] = .ok ⟨200, []⟩ :=
  ⟨(fetchAttempt_classification HttpMethod.GET [] ⟨503, []⟩).1 (by decide),
   (fetchAttempt_classification HttpMethod.GET [] ⟨404, []⟩).2.1
     (by decide) (by decide) (by decide),
   (fetchAttempt_classification HttpMethod.GET [("Range", "bytes=0-1")]
     ⟨404, []⟩).2.2.1 (by decide),
   (fetchAttempt_classification HttpMethod.GET [] ⟨404, []⟩).2.2.2.1,
   (fetchAttempt_classification HttpMethod.GET [] ⟨200, []⟩).2.2.2.2
     (fun _ => some ⟨200, []⟩) 2 rfl rfl⟩

/-- C9, counterexample: with `If-None-Match` present but empty, the
`If-Modified-Since` check IS performed — the synthesizer returns the
Last-Modified 304 (no `etag` header), and removing `If-Modified-Since`
changes the result — contradicting "whenever If-None-Match is present, the
If-Modified-Since check is never performed". -/
theorem conditional_empty_inm_checks_ims :
    headersGet [("if-none-match", ""),
        ("if-modified-since", "Thu, 02 Jan 2020 00:00:00 GMT")]
        "if-none-match" = some ""
    ∧ createConditionalResponse
        [("if-none-match", ""),
          ("if-modified-since", "Thu, 02 Jan 2020 00:00:00 GMT")]
        ⟨200, [("etag", "abc"),
          ("last-modified", "Wed, 01 Jan 2020 00:00:00 GMT"),
          ("cache-control", "max-age=60")]⟩
        (fun s => if s = "Thu, 02 Jan 2020 00:00:00 GMT" then some 1577923200000
          else if s = "Wed, 01 Jan 2020 00:00:00 GMT" then some 1577836800000
          else none)
        = some ⟨304, [("last-modified", "Wed, 01 Jan 2020 00:00:00 GMT"),
            ("cache-control", "max-age=60")]⟩
    ∧ createConditionalResponse [("if-none-match", "")]
        ⟨200, [("etag", "abc"),
          ("last-modified", "Wed, 01 Jan 2020 00:00:00 GMT"),
          ("cache-control", "max-age=60")]⟩
        (fun s => if s = "Thu, 02 Jan 2020 00:00:00 GMT" then some 1577923200000
          else if s = "Wed, 01 Jan 2020 00:00:00 GMT" then some 1577836800000
          else none)
        = none :=
  ⟨rfl, rfl, rfl⟩

/-- C9 (amended): a truthy (present, nonempty) matching `If-None-Match`
yields the bodyless 304 with the entry's `ETag`/`Cache-Control`/
`Last-Modified`; a truthy non-matching one yields no synthesized response;
and whenever `If-None-Match` is truthy the result is exactly that of the
ETag block — the `If-Modified-Since` header and the date semantics are
never consulted.  (An If-None-Match that is present but empty is falsy and
does not suppress the Last-Modified check.) -/
theorem createConditionalResponse_spec (req : List (String × String))
    (cached : JsResponse) (pd : String → Option Int) :
    (∀ et serverEtag, headersGet req "if-none-match" = some et → et ≠ "" →
      headersGet cached.headers "etag" = some serverEtag → serverEtag ≠ "" →
      (et = "*" ∨ strIncludes et serverEtag = true) →
      createConditionalResponse req cached pd
        = some ⟨304, [("etag", serverEtag),
            ("cache-control",
              (headersGet cached.headers "cache-control").getD ""),
            ("last-modified",
              (headersGet cached.headers "last-modified").getD "")]⟩)
    ∧ (∀ et serverEtag, headersGet req "if-none-match" = some et → et ≠ "" →
      headersGet cached.headers "etag" = some serverEtag →
      et ≠ "*" → strIncludes et serverEtag = false →
      createConditionalResponse req cached pd = none)
    ∧ (jsTruthy (headersGet req "if-none-match") = true →
      createConditionalResponse req cached pd
        = etagConditional (headersGet req "if-none-match") cached) := by
  refine ⟨?_, ?_, ?_⟩
  · intro et serverEtag hinm hne hetag hse hmatch
    unfold createConditionalResponse etagConditional
    rw [hinm]
    dsimp only
    rw [if_neg (by simpa using hne), hetag]
    dsimp only
    rw [if_neg (by simpa using hse), if_pos hmatch]
  · intro et serverEtag hinm hne hetag hstar hsub
    unfold createConditionalResponse etagConditional modifiedSinceConditional
    rw [hinm]
    dsimp only
    rw [if_neg (by simpa using hne), hetag]
    dsimp only
    by_cases hse : serverEtag = ""
    · rw [if_pos hse]
      dsimp only
      rcases headersGet req "if-modified-since" with _ | cms
      · rfl
      · dsimp only
        rw [if_neg ?_]
        intro ⟨_, htr⟩
        rw [jsTruthy] at htr
        simp [hne] at htr
    · rw [if_neg hse, if_neg (by
        intro h
        rcases h with h | h
        · exact hstar h
        · rw [h] at hsub
          cases hsub)]
      rcases headersGet req "if-modified-since" with _ | cms
      · rfl
      · dsimp only
        rw [if_neg ?_]
        intro ⟨_, htr⟩
        rw [jsTruthy] at htr
        simp [hne] at htr
  · intro htruthy
    unfold createConditionalResponse
    rcases he : etagConditional (headersGet req "if-none-match") cached
      with _ | r
    · dsimp only
      unfold modifiedSinceConditional
      rcases headersGet req "if-modified-since" with _ | cms
      · rfl
      · dsimp only
        rw [if_neg ?_]
        intro ⟨_, htr⟩
        rw [htruthy] at htr
        cases htr
    · rfl

/-- C9 witness: against a cached entry with `ETag: abc`, a request with
`If-None-Match: abc` gets the bodyless 304 with the entry's headers; with
`If-None-Match: xyz` no response is synthesized; and with both
`If-None-Match: abc` and an `If-Modified-Since`, the result is exactly the
ETag block's. -/
theorem createConditionalResponse_spec_witness :
    createConditionalResponse [("if-none-match", "abc")]
        ⟨200, [("etag", "abc"),
          ("last-modified", "Wed, 01 Jan 2020 00:00:00 GMT"),
          ("cache-control", "max-age=60")]⟩ (fun _ => none)
      = some ⟨304, [("etag", "abc"), ("cache-control", "max-age=60"),
          ("last-modified", "Wed, 01 Jan 2020 00:00:00 GMT")]⟩
    ∧ createConditionalResponse [("if-none-match", "xyz")]
        ⟨200, [("etag", "abc"),
          ("last-modified", "Wed, 01 Jan 2020 00:00:00 GMT"),
          ("cache-control", "max-age=60")]⟩ (fun _ => none)
      = none
    ∧ createConditionalResponse [("if-none-match", "abc"),
        ("if-modified-since", "Thu, 02 Jan 2020 00:00:00 GMT")]
        ⟨200, [("etag", "abc"),
          ("last-modified", "Wed, 01 Jan 2020 00:00:00 GMT"),
          ("cache-control", "max-age=60")]⟩ (fun _ => some 0)
      = etagConditional (some "abc")
          ⟨200, [("etag", "abc"),
            ("last-modified", "Wed, 01 Jan 2020 00:00:00 GMT"),
            ("cache-control", "max-age=60")]⟩ :=
  ⟨(createConditionalResponse_spec [("if-none-match", "abc")]
      ⟨200, [("etag", "abc"),
        ("last-modified", "Wed, 01 Jan 2020 00:00:00 GMT"),
        ("cache-control", "max-age=60")]⟩ (fun _ => none)).1
      "abc" "abc" rfl (by decide) rfl (by decide) (by decide),
   (createConditionalResponse_spec [("if-none-match", "xyz")]
      ⟨200, [("etag", "abc"),
        ("last-modified", "Wed, 01 Jan 2020 00:00:00 GMT"),
        ("cache-control", "max-age=60")]⟩ (fun _ => none)).2.1
      "xyz" "abc" rfl (by decide) rfl (by decide) (by decide),
   (createConditionalResponse_spec [("if-none-match", "abc"),
      ("if-modified-since", "Thu, 02 Jan 2020 00:00:00 GMT")]
      ⟨200, [("etag", "abc"),
        ("last-modified", "Wed, 01 Jan 2020 00:00:00 GMT"),
        ("cache-control", "max-age=60")]⟩ (fun _ => some 0)).2.2
      (by decide)⟩

/-- C10, counterexample: `"images/2024/"` is accepted at the default
limits, but the result keeps the trailing slash — `"images/2024/"`, not
the claimed `"images/2024"` (`normalizePath` strips only a leading
slash). -/
theorem prefix_trailing_slash_kept :
    validateAndSanitizePrefix "images/2024/" 512 10 = .ok "images/2024/"
    ∧ "images/2024/" ≠ "images/2024" :=
  ⟨rfl, by decide⟩

/-- C10 (amended): at the default limits (max length 512, max depth 10),
`"../../etc/passwd"` is rejected with the path-traversal error, and
`"images/2024/"` is accepted with the normalized value `"images/2024/"`
(the trailing slash is preserved). -/
theorem validateAndSanitizePrefix_spec :
    validateAndSanitizePrefix "../../etc/passwd" 512 10
      = .error .traversalDetected
    ∧ validateAndSanitizePrefix "images/2024/" 512 10
      = .ok "images/2024/" :=
  ⟨rfl, rfl⟩

end S3Proxy
